import Mathlib

/-!
A verification development for the change-tracking core of `sqlalchemy-json`
(`sqlalchemy_json/track.py` and the pickling mixin of
`sqlalchemy_json/__init__.py`).

The Python code mutates a graph of objects: `TrackedDict` / `TrackedList`
instances hold a `parent` attribute pointing at the enclosing tracked
container, and every mutating method first calls `changed()`, which walks the
`parent` chain and, at a parentless node that is an instance of SQLAlchemy's
`Mutable`, invokes the external dirty-notification hook
(`Mutable.changed()`).

We embed this object graph as an explicit heap: objects are identified by
natural-number ids, each object carries a runtime-type tag, its `parent`
attribute and its payload (ordered dict entries or list elements).  Python's
recursion (conversion of nested plain containers, the upward `changed` walk,
structural `==`) is modelled with an explicit fuel argument standing for the
interpreter's recursion limit; `none` is "the recursion limit was hit".
Root-hook invocations are recorded as the list of object ids whose
`Mutable.changed()` fired.
-/

namespace SqlJson

/-- Scalar (non-container) Python values: `None`, booleans, ints, strings. -/
inductive Scalar where
  | nil
  | bool (b : Bool)
  | int (n : Int)
  | str (s : String)
deriving DecidableEq, Repr

/-- Python object-equality on scalars (`==`).  In Python `bool` is a subtype
of `int`, so `True == 1` and `False == 0`. -/
def Scalar.pyEq : Scalar → Scalar → Bool
  | .nil, .nil => true
  | .bool a, .bool b => a = b
  | .bool a, .int n => (if a then (1 : Int) else 0) = n
  | .int n, .bool a => n = (if a then (1 : Int) else 0)
  | .int m, .int n => m = n
  | .str s, .str t => s = t
  | _, _ => false

/-- Runtime type tags for the container classes the tracking core can meet.
`dict` and `list` are the exact builtin types; `trackedDict` / `trackedList`
are the classes registered in `TrackedObject._type_mapping`;
`nestedMutableDict` / `nestedMutableList` are the `Mutable` subclasses from
`sqlalchemy_json/__init__.py` (subclasses of the tracked classes, *not*
registered themselves); `otherDictSub` / `otherListSub` stand for any other
unregistered strict subclass of `dict` / `list`. -/
inductive PyType where
  | dict
  | list
  | trackedDict
  | trackedList
  | nestedMutableDict
  | nestedMutableList
  | otherDictSub
  | otherListSub
deriving DecidableEq, Repr

/-- `isinstance(-, Mutable)`: only the `NestedMutable*` classes mix in
SQLAlchemy's `Mutable`, whose `changed()` is the root notification hook. -/
def PyType.isMutable : PyType → Bool
  | .nestedMutableDict => true
  | .nestedMutableList => true
  | _ => false

/-- The tracked container classes (the registered classes and their
subclasses): a value of such a type is a "tracked node". -/
def PyType.isTracked : PyType → Bool
  | .trackedDict => true
  | .trackedList => true
  | .nestedMutableDict => true
  | .nestedMutableList => true
  | _ => false

/-- A Python value as stored in a container slot: a scalar, or a reference to
a heap object. -/
inductive PyVal where
  | prim (s : Scalar)
  | ref (i : Nat)
deriving DecidableEq, Repr

/-- Payload of a heap object: ordered key/value entries for mappings (Python
dicts preserve insertion order), or an element list for sequences. -/
inductive ObjData where
  | dictData (entries : List (String × PyVal))
  | listData (elems : List PyVal)
deriving DecidableEq, Repr

/-- All values stored directly in an object's payload. -/
def ObjData.values : ObjData → List PyVal
  | .dictData es => es.map Prod.snd
  | .listData xs => xs

/-- A heap object: runtime type, the `parent` attribute of `TrackedObject`
(`none` both for "set to None" and for plain containers, which never read
it), and the payload. -/
structure Obj where
  ty : PyType
  parent : Option Nat
  data : ObjData
deriving DecidableEq, Repr

/-- The object heap: `objs[i]` is the object with id `i`; allocation appends. -/
structure Heap where
  objs : List Obj
deriving DecidableEq, Repr

def Heap.size (h : Heap) : Nat := h.objs.length

def Heap.get? (h : Heap) (i : Nat) : Option Obj := h.objs[i]?

/-- Allocate a new object, returning the new heap and the fresh id. -/
def Heap.alloc (h : Heap) (o : Obj) : Heap × Nat :=
  (⟨h.objs ++ [o]⟩, h.objs.length)

/-- Overwrite the object with id `i` (no-op when `i` is unallocated). -/
def Heap.set (h : Heap) (i : Nat) (o : Obj) : Heap := ⟨h.objs.set i o⟩

/-- Rebind the `parent` attribute of object `i`. -/
def Heap.setParent (h : Heap) (i : Nat) (p : Option Nat) : Heap :=
  match h.get? i with
  | some o => h.set i ⟨o.ty, p, o.data⟩
  | none => h

/-! ### Association-list operations (Python `dict` semantics)

A Python dict is an insertion-ordered map with unique keys.  `assocSet` is
`d[k] = v` (replace in place, or append a new entry), `assocGet` is
`d.get(k)`, `assocErase` is `d.pop(k)`'s removal. -/

def assocSet {κ α : Type} [DecidableEq κ] : List (κ × α) → κ → α → List (κ × α)
  | [], k, v => [(k, v)]
  | (k', v') :: rest, k, v =>
    if k' = k then (k, v) :: rest else (k', v') :: assocSet rest k v

def assocGet {κ α : Type} [DecidableEq κ] : List (κ × α) → κ → Option α
  | [], _ => none
  | (k', v') :: rest, k => if k' = k then some v' else assocGet rest k

def assocErase {κ α : Type} [DecidableEq κ] : List (κ × α) → κ → List (κ × α)
  | [], _ => []
  | (k', v') :: rest, k => if k' = k then rest else (k', v') :: assocErase rest k

/-- `dict(pairs)`: build a dict by inserting the pairs left to right. -/
def dictFromPairs {κ α : Type} [DecidableEq κ] (ps : List (κ × α)) : List (κ × α) :=
  ps.foldl (fun acc kv => assocSet acc kv.1 kv.2) []

/-! ### The conversion registry

`TrackedObject.register` stores `origin_type -> tracked_type` in the class
dict `_type_mapping`; the two decorations in `track.py` register exactly
`dict -> TrackedDict` and `list -> TrackedList`.  `convert` looks the *exact*
runtime type of a value up in this mapping (`self._type_mapping.get(type(obj))`). -/

def registerType (m : List (PyType × PyType)) (origin tracked : PyType) :
    List (PyType × PyType) :=
  assocSet m origin tracked

/-- `TrackedObject._type_mapping` after the two `@TrackedObject.register`
decorations in `track.py` have run. -/
def typeMapping : List (PyType × PyType) :=
  registerType (registerType [] .dict .trackedDict) .list .trackedList

/-! ### `TrackedObject.changed`

```python
def changed(self, message=None, *args):
    ...
    if self.parent is not None:
        self.parent.changed()
    elif isinstance(self, Mutable):
        super(TrackedObject, self).changed()
```

The walk carries no payload; we return the list of object ids whose
`Mutable.changed()` hook was invoked (in order).  The heap is never
modified.  `none` models blowing the recursion limit on an unboundedly long
(cyclic) parent chain. -/
def changed : Nat → Heap → Nat → Option (List Nat)
  | 0, _, _ => none
  | fuel + 1, h, i =>
    match h.get? i with
    | none => none
    | some o =>
      match o.parent with
      | some p => changed fuel h p
      | none => if o.ty.isMutable then some [i] else some []

/-- Placeholder payload of a freshly allocated container. -/
def ObjData.emptyLike : ObjData → ObjData
  | .dictData _ => .dictData []
  | .listData _ => .listData []

/-! ### `TrackedObject.convert` and the tracked constructors

```python
@classmethod
def convert(cls, obj, parent):
    replacement_type = cls._type_mapping.get(type(obj))
    if replacement_type is not None:
        new = replacement_type(obj)
        new.parent = parent
        return new
    return obj
```

`replacement_type(obj)` runs `TrackedDict.__init__` / `TrackedList.__init__`,
which fills the fresh object from `obj`'s items, converting every member with
the fresh object as parent (`newTracked` below); the `parent` attribute of
the fresh object is set only afterwards (`new.parent = parent`).  Note the
conversion generators are consumed by the *native* `dict`/`list` constructor,
which does not call the overridden `__setitem__`, so construction never calls
`changed()`; interleaving of conversion and native insertion is unobservable,
so we convert first and insert afterwards.  Every recursive call burns one
unit of fuel. -/
mutual

def convert : Nat → Heap → PyVal → Nat → Option (Heap × PyVal)
  | 0, _, _, _ => none
  | fuel + 1, h, v, pid =>
    match v with
    | .prim s => some (h, .prim s)
    | .ref i =>
      match h.get? i with
      | none => none
      | some o =>
        match assocGet typeMapping o.ty with
        | none => some (h, .ref i)
        | some replTy =>
          match newTracked fuel h replTy o.data with
          | none => none
          | some (h', nid) => some (h'.setParent nid (some pid), .ref nid)

/-- `replacement_type(obj)` / `TrackedDict(source)` / `TrackedList(iterable)`:
allocate the fresh tracked object (its `parent` starts out `None`, set by
`TrackedObject.__init__`), convert every member with the fresh object as
parent, and fill the native storage. -/
def newTracked : Nat → Heap → PyType → ObjData → Option (Heap × Nat)
  | 0, _, _, _ => none
  | fuel + 1, h, ty, data =>
    match h.alloc ⟨ty, none, data.emptyLike⟩ with
    | (h1, nid) =>
      match data with
      | .dictData es =>
        match convEntries fuel h1 es nid with
        | none => none
        | some (h2, es') =>
          some (h2.set nid ⟨ty, none, .dictData (dictFromPairs es')⟩, nid)
      | .listData xs =>
        match convElems fuel h1 xs nid with
        | none => none
        | some (h2, xs') => some (h2.set nid ⟨ty, none, .listData xs'⟩, nid)

/-- `convert_items`: convert the value of every 2-tuple, threading the heap. -/
def convEntries : Nat → Heap → List (String × PyVal) → Nat →
    Option (Heap × List (String × PyVal))
  | 0, _, _, _ => none
  | _ + 1, h, [], _ => some (h, [])
  | fuel + 1, h, kv :: rest, pid =>
    match convert fuel h kv.2 pid with
    | none => none
    | some (h1, v') =>
      match convEntries fuel h1 rest pid with
      | none => none
      | some (h2, rest') => some (h2, (kv.1, v') :: rest')

/-- `convert_iterable`: convert every member, threading the heap. -/
def convElems : Nat → Heap → List PyVal → Nat → Option (Heap × List PyVal)
  | 0, _, _, _ => none
  | _ + 1, h, [], _ => some (h, [])
  | fuel + 1, h, x :: rest, pid =>
    match convert fuel h x pid with
    | none => none
    | some (h1, x') =>
      match convElems fuel h1 rest pid with
      | none => none
      | some (h2, rest') => some (h2, x' :: rest')

end

/-! ### Python structural equality (`==`)

`list.remove(value)` scans with `==`.  Containers compare structurally
(`dict.__eq__` ignores entry order, `list.__eq__` is element-wise), tracked
subclasses inherit these comparisons.  Fuel bounds the total comparison work
(standing for the recursion limit). -/
mutual

def pyEq : Nat → Heap → PyVal → PyVal → Option Bool
  | 0, _, _, _ => none
  | _ + 1, _, .prim a, .prim b => some (a.pyEq b)
  | _ + 1, _, .prim _, .ref _ => some false
  | _ + 1, _, .ref _, .prim _ => some false
  | fuel + 1, h, .ref i, .ref j =>
    if i = j then some true
    else
      match h.get? i, h.get? j with
      | some oa, some ob =>
        match oa.data, ob.data with
        | .dictData ea, .dictData eb =>
          if ea.length = eb.length then pyEqDict fuel h ea eb else some false
        | .listData xa, .listData xb =>
          if xa.length = xb.length then pyEqList fuel h xa xb else some false
        | _, _ => some false
      | _, _ => none

/-- Equal-length dicts are `==` iff every key of the first maps to an equal
value in the second. -/
def pyEqDict : Nat → Heap → List (String × PyVal) → List (String × PyVal) →
    Option Bool
  | 0, _, _, _ => none
  | _ + 1, _, [], _ => some true
  | fuel + 1, h, kv :: rest, eb =>
    match assocGet eb kv.1 with
    | none => some false
    | some w =>
      match pyEq fuel h kv.2 w with
      | none => none
      | some false => some false
      | some true => pyEqDict fuel h rest eb

/-- Equal-length lists are `==` iff they are element-wise `==`. -/
def pyEqList : Nat → Heap → List PyVal → List PyVal → Option Bool
  | 0, _, _, _ => none
  | _ + 1, _, [], _ => some true
  | _ + 1, _, _ :: _, [] => some false
  | fuel + 1, h, x :: xs, y :: ys =>
    match pyEq fuel h x y with
    | none => none
    | some false => some false
    | some true => pyEqList fuel h xs ys

end

/-- Index of the first element `==`-equal to `v` (`none` in the inner option:
no match).  Used by `list.remove`. -/
def findEqIdx : Nat → Heap → List PyVal → PyVal → Option (Option Nat)
  | _, _, [], _ => some none
  | fuel, h, x :: xs, v =>
    match pyEq fuel h x v with
    | none => none
    | some true => some (some 0)
    | some false =>
      match findEqIdx fuel h xs v with
      | none => none
      | some r => some (r.map (· + 1))

/-- Python sequence index normalization: negative indices count from the end;
`none` is an `IndexError`. -/
def normIdx (idx : Int) (len : Nat) : Option Nat :=
  let j := if idx < 0 then idx + (len : Int) else idx
  if 0 ≤ j ∧ j < (len : Int) then some j.toNat else none

/-! ### The mutating operations

Every mutating method of `TrackedDict` / `TrackedList` first calls
`self.changed(...)` (the message argument is only debug-logged and not
modelled) and only then performs conversion and the native operation; any
precondition failure (`KeyError`, `IndexError`, `ValueError`, and the
`TypeError` from `sort`, see below) is raised *after* the notification has
already propagated.  An operation's outcome is the hook-invocation list
together with either an error or the new heap and the returned values. -/

inductive PyErr where
  | keyError (k : String)
  | indexError
  | valueError
  | typeError
deriving DecidableEq, Repr

deriving instance DecidableEq for Except

structure OpResult where
  events : List Nat
  out : Except PyErr (Heap × List PyVal)
deriving DecidableEq, Repr

/-- `TrackedDict.__setitem__(key, value)`: `changed`, then
`dict.__setitem__(key, convert(value, self))`. -/
def dictSetItem (fuel : Nat) (h : Heap) (selfId : Nat) (key : String)
    (value : PyVal) : Option OpResult :=
  match changed fuel h selfId with
  | none => none
  | some ev =>
    match convert fuel h value selfId with
    | none => none
    | some (h1, v') =>
      match h1.get? selfId with
      | none => none
      | some o =>
        match o.data with
        | .dictData es =>
          some ⟨ev, .ok (h1.set selfId ⟨o.ty, o.parent, .dictData (assocSet es key v')⟩, [])⟩
        | .listData _ => none

/-- `TrackedDict.__delitem__(key)`: `changed`, then `dict.__delitem__(key)`
(which raises `KeyError` when the key is absent — note the notification has
already fired by then). -/
def dictDelItem (fuel : Nat) (h : Heap) (selfId : Nat) (key : String) :
    Option OpResult :=
  match changed fuel h selfId with
  | none => none
  | some ev =>
    match h.get? selfId with
    | none => none
    | some o =>
      match o.data with
      | .dictData es =>
        match assocGet es key with
        | some _ =>
          some ⟨ev, .ok (h.set selfId ⟨o.ty, o.parent, .dictData (assocErase es key)⟩, [])⟩
        | none => some ⟨ev, .error (.keyError key)⟩
      | .listData _ => none

/-- `TrackedDict.clear()`: `changed`, then `dict.clear()`. -/
def dictClear (fuel : Nat) (h : Heap) (selfId : Nat) : Option OpResult :=
  match changed fuel h selfId with
  | none => none
  | some ev =>
    match h.get? selfId with
    | none => none
    | some o =>
      match o.data with
      | .dictData _ =>
        some ⟨ev, .ok (h.set selfId ⟨o.ty, o.parent, .dictData []⟩, [])⟩
      | .listData _ => none

/-- `TrackedDict.pop(*key_and_default)`: `changed`, then `dict.pop(...)` —
returns and removes the value, returns the default when given and the key is
absent, raises `KeyError` otherwise. -/
def dictPop (fuel : Nat) (h : Heap) (selfId : Nat) (key : String)
    (dflt : Option PyVal) : Option OpResult :=
  match changed fuel h selfId with
  | none => none
  | some ev =>
    match h.get? selfId with
    | none => none
    | some o =>
      match o.data with
      | .dictData es =>
        match assocGet es key with
        | some v =>
          some ⟨ev, .ok (h.set selfId ⟨o.ty, o.parent, .dictData (assocErase es key)⟩, [v])⟩
        | none =>
          match dflt with
          | some d => some ⟨ev, .ok (h, [d])⟩
          | none => some ⟨ev, .error (.keyError key)⟩
      | .listData _ => none

/-- `TrackedDict.popitem()`: `changed`, then `dict.popitem()` — removes and
returns the last-inserted entry, raising `KeyError` on an empty dict. -/
def dictPopItem (fuel : Nat) (h : Heap) (selfId : Nat) : Option OpResult :=
  match changed fuel h selfId with
  | none => none
  | some ev =>
    match h.get? selfId with
    | none => none
    | some o =>
      match o.data with
      | .dictData es =>
        match es.getLast? with
        | some kv =>
          some ⟨ev, .ok (h.set selfId ⟨o.ty, o.parent, .dictData es.dropLast⟩,
            [.prim (.str kv.1), kv.2])⟩
        | none => some ⟨ev, .error (.keyError "popitem")⟩
      | .listData _ => none

/-- `TrackedDict.update(source, **kwds)`: one `changed`, then the native
`dict.update` consumes the converted items of `source` and then of `kwds`
(the native update inserts directly, without calling the overridden
`__setitem__`, so no further notification occurs). -/
def dictUpdate (fuel : Nat) (h : Heap) (selfId : Nat)
    (source kwds : List (String × PyVal)) : Option OpResult :=
  match changed fuel h selfId with
  | none => none
  | some ev =>
    match convEntries fuel h source selfId with
    | none => none
    | some (h1, src') =>
      match convEntries fuel h1 kwds selfId with
      | none => none
      | some (h2, kw') =>
        match h2.get? selfId with
        | none => none
        | some o =>
          match o.data with
          | .dictData es =>
            some ⟨ev, .ok (h2.set selfId ⟨o.ty, o.parent,
              .dictData ((src' ++ kw').foldl (fun acc kv => assocSet acc kv.1 kv.2) es)⟩, [])⟩
          | .listData _ => none

/-- `TrackedDict.setdefault(key, default)`: when the key is present, return
the stored value without any notification or mutation; otherwise run
`self[key] = default` (the overridden `__setitem__`: one `changed`, value
converted) and return `self[key]` — the value actually stored, which may be
the tracked conversion of `default` rather than `default` itself. -/
def dictSetDefault (fuel : Nat) (h : Heap) (selfId : Nat) (key : String)
    (dflt : PyVal) : Option OpResult :=
  match h.get? selfId with
  | none => none
  | some o =>
    match o.data with
    | .dictData es =>
      match assocGet es key with
      | some v => some ⟨[], .ok (h, [v])⟩
      | none =>
        match dictSetItem fuel h selfId key dflt with
        | none => none
        | some ⟨ev, .error e⟩ => some ⟨ev, .error e⟩
        | some ⟨ev, .ok (h1, _)⟩ =>
          match h1.get? selfId with
          | none => none
          | some o1 =>
            match o1.data with
            | .dictData es1 =>
              match assocGet es1 key with
              | some v1 => some ⟨ev, .ok (h1, [v1])⟩
              | none => none
            | .listData _ => none
    | .listData _ => none

/-- `TrackedList.__setitem__(key, value)`: `changed`, then
`list.__setitem__(key, convert(value, self))` (raising `IndexError` for an
out-of-range index). -/
def listSetItem (fuel : Nat) (h : Heap) (selfId : Nat) (idx : Int)
    (value : PyVal) : Option OpResult :=
  match changed fuel h selfId with
  | none => none
  | some ev =>
    match convert fuel h value selfId with
    | none => none
    | some (h1, v') =>
      match h1.get? selfId with
      | none => none
      | some o =>
        match o.data with
        | .listData xs =>
          match normIdx idx xs.length with
          | some j =>
            some ⟨ev, .ok (h1.set selfId ⟨o.ty, o.parent, .listData (xs.set j v')⟩, [])⟩
          | none => some ⟨ev, .error .indexError⟩
        | .dictData _ => none

/-- `TrackedList.__delitem__(key)`: `changed`, then `list.__delitem__`. -/
def listDelItem (fuel : Nat) (h : Heap) (selfId : Nat) (idx : Int) :
    Option OpResult :=
  match changed fuel h selfId with
  | none => none
  | some ev =>
    match h.get? selfId with
    | none => none
    | some o =>
      match o.data with
      | .listData xs =>
        match normIdx idx xs.length with
        | some j =>
          some ⟨ev, .ok (h.set selfId ⟨o.ty, o.parent, .listData (xs.eraseIdx j)⟩, [])⟩
        | none => some ⟨ev, .error .indexError⟩
      | .dictData _ => none

/-- `TrackedList.append(item)`: `changed`, then
`list.append(convert(item, self))`. -/
def listAppend (fuel : Nat) (h : Heap) (selfId : Nat) (item : PyVal) :
    Option OpResult :=
  match changed fuel h selfId with
  | none => none
  | some ev =>
    match convert fuel h item selfId with
    | none => none
    | some (h1, v') =>
      match h1.get? selfId with
      | none => none
      | some o =>
        match o.data with
        | .listData xs =>
          some ⟨ev, .ok (h1.set selfId ⟨o.ty, o.parent, .listData (xs ++ [v'])⟩, [])⟩
        | .dictData _ => none

/-- `TrackedList.extend(iterable)`: one `changed`, then the native
`list.extend` consumes the converted members. -/
def listExtend (fuel : Nat) (h : Heap) (selfId : Nat) (items : List PyVal) :
    Option OpResult :=
  match changed fuel h selfId with
  | none => none
  | some ev =>
    match convElems fuel h items selfId with
    | none => none
    | some (h1, vs') =>
      match h1.get? selfId with
      | none => none
      | some o =>
        match o.data with
        | .listData xs =>
          some ⟨ev, .ok (h1.set selfId ⟨o.ty, o.parent, .listData (xs ++ vs')⟩, [])⟩
        | .dictData _ => none

/-- `TrackedList.remove(value)`: `changed`, then `list.remove(value)` —
removes the first `==`-equal element, raising `ValueError` when none. -/
def listRemove (fuel : Nat) (h : Heap) (selfId : Nat) (value : PyVal) :
    Option OpResult :=
  match changed fuel h selfId with
  | none => none
  | some ev =>
    match h.get? selfId with
    | none => none
    | some o =>
      match o.data with
      | .listData xs =>
        match findEqIdx fuel h xs value with
        | none => none
        | some (some j) =>
          some ⟨ev, .ok (h.set selfId ⟨o.ty, o.parent, .listData (xs.eraseIdx j)⟩, [])⟩
        | some none => some ⟨ev, .error .valueError⟩
      | .dictData _ => none

/-- `TrackedList.pop(index)`: `changed`, then `list.pop(index)` (this
override makes the index mandatory). -/
def listPop (fuel : Nat) (h : Heap) (selfId : Nat) (idx : Int) :
    Option OpResult :=
  match changed fuel h selfId with
  | none => none
  | some ev =>
    match h.get? selfId with
    | none => none
    | some o =>
      match o.data with
      | .listData xs =>
        match normIdx idx xs.length with
        | some j =>
          match xs[j]? with
          | some v =>
            some ⟨ev, .ok (h.set selfId ⟨o.ty, o.parent, .listData (xs.eraseIdx j)⟩, [v])⟩
          | none => some ⟨ev, .error .indexError⟩
        | none => some ⟨ev, .error .indexError⟩
      | .dictData _ => none

/-- `TrackedList.sort(cmp=None, key=None, reverse=False)`: `changed`, then
`list.sort(cmp=cmp, key=key, reverse=reverse)`.  The package declares
`python_requires=">= 3.6"` (setup.py), and on Python 3 `list.sort` accepts
only the keyword arguments `key` and `reverse`; passing `cmp` makes the call
raise `TypeError` during argument parsing, before any reordering — so the
notification fires and the list is left unsorted.  (The `key` callable is
never consulted and is not modelled.) -/
def listSort (fuel : Nat) (h : Heap) (selfId : Nat) (_rev : Bool) :
    Option OpResult :=
  match changed fuel h selfId with
  | none => none
  | some ev =>
    match h.get? selfId with
    | none => none
    | some o =>
      match o.data with
      | .listData _ => some ⟨ev, .error .typeError⟩
      | .dictData _ => none

/-- The mutating operations of the public interface (the argument of
`reverse` in `lSort` is irrelevant to the raised `TypeError` but kept for the
signature). -/
inductive MutOp where
  | dSet (key : String) (value : PyVal)
  | dDel (key : String)
  | dClear
  | dPop (key : String) (dflt : Option PyVal)
  | dPopItem
  | dUpdate (source kwds : List (String × PyVal))
  | lSet (idx : Int) (value : PyVal)
  | lDel (idx : Int)
  | lAppend (value : PyVal)
  | lExtend (items : List PyVal)
  | lRemove (value : PyVal)
  | lPop (idx : Int)
  | lSort (reverse : Bool)
deriving DecidableEq, Repr

def applyOp (fuel : Nat) (h : Heap) (selfId : Nat) : MutOp → Option OpResult
  | .dSet k v => dictSetItem fuel h selfId k v
  | .dDel k => dictDelItem fuel h selfId k
  | .dClear => dictClear fuel h selfId
  | .dPop k d => dictPop fuel h selfId k d
  | .dPopItem => dictPopItem fuel h selfId
  | .dUpdate src kwds => dictUpdate fuel h selfId src kwds
  | .lSet i v => listSetItem fuel h selfId i v
  | .lDel i => listDelItem fuel h selfId i
  | .lAppend v => listAppend fuel h selfId v
  | .lExtend vs => listExtend fuel h selfId vs
  | .lRemove v => listRemove fuel h selfId v
  | .lPop i => listPop fuel h selfId i
  | .lSort r => listSort fuel h selfId r

/-- `TrackedDict(source)` / `TrackedList(iterable)` /
`NestedMutableDict.coerce` / `NestedMutableList.coerce` on a plain container:
build the tracked equivalent.  `__init__` contains no `changed()` call and
the native constructor bypasses the overridden `__setitem__`, so
construction fires no notification: the event list is definitionally empty. -/
def constructTracked (fuel : Nat) (nested : Bool) (h : Heap) (v : PyVal) :
    Option (List Nat × Heap × Nat) :=
  match v with
  | .prim _ => none
  | .ref i =>
    match h.get? i with
    | none => none
    | some o =>
      match o.data with
      | .dictData _ =>
        match newTracked fuel h (if nested then .nestedMutableDict else .trackedDict) o.data with
        | none => none
        | some (h', nid) => some ([], h', nid)
      | .listData _ =>
        match newTracked fuel h (if nested then .nestedMutableList else .trackedList) o.data with
        | none => none
        | some (h', nid) => some ([], h', nid)

/-! ### Extraction to plain trees

`toTree` reads the pure JSON value of a container graph, ignoring type tags
and `parent` attributes: this is "the plain structure a tracked container
wraps" against which value-equality of a construction is judged (key set,
iteration order and element order are all captured by the ordered tree). -/

inductive JTree where
  | prim (s : Scalar)
  | dict (es : List (String × JTree))
  | list (xs : List JTree)

mutual

def toTree : Nat → Heap → PyVal → Option JTree
  | 0, _, _ => none
  | _ + 1, _, .prim s => some (.prim s)
  | fuel + 1, h, .ref i =>
    match h.get? i with
    | none => none
    | some o =>
      match o.data with
      | .dictData es =>
        match toTreeEntries fuel h es with
        | none => none
        | some ts => some (.dict ts)
      | .listData xs =>
        match toTreeElems fuel h xs with
        | none => none
        | some ts => some (.list ts)

def toTreeEntries : Nat → Heap → List (String × PyVal) →
    Option (List (String × JTree))
  | 0, _, _ => none
  | _ + 1, _, [] => some []
  | fuel + 1, h, kv :: rest =>
    match toTree fuel h kv.2 with
    | none => none
    | some t =>
      match toTreeEntries fuel h rest with
      | none => none
      | some ts => some ((kv.1, t) :: ts)

def toTreeElems : Nat → Heap → List PyVal → Option (List JTree)
  | 0, _, _ => none
  | _ + 1, _, [] => some []
  | fuel + 1, h, x :: rest =>
    match toTree fuel h x with
    | none => none
    | some t =>
      match toTreeElems fuel h rest with
      | none => none
      | some ts => some (t :: ts)

end

/-! ### Specification predicates -/

/-- Whether the root hook is available on object `r` (`isinstance(-, Mutable)`). -/
def mutableAt (h : Heap) (r : Nat) : Bool :=
  match h.get? r with
  | some o => o.ty.isMutable
  | none => false

/-- `Ancestors h i c`: `c` is the finite `parent` chain starting at `i` and
ending at a parentless (root) object.  This is the shape of every reachable
tracking state: `parent` edges always point from a freshly created node to a
pre-existing one, so chains never cycle. -/
inductive Ancestors (h : Heap) : Nat → List Nat → Prop where
  | root : ∀ i o, h.get? i = some o → o.parent = none → Ancestors h i [i]
  | step : ∀ i p o rest, h.get? i = some o → o.parent = some p →
      Ancestors h p rest → Ancestors h i (i :: rest)

/-- `PlainVal h v`: `v` is a scalar or a reference to a finite tree of plain
(`dict`/`list`-typed) containers — the shape of "a plain nested structure"
handed to the library by application code.  Real Python dicts cannot carry
duplicate keys, hence the `Nodup` condition. -/
inductive PlainVal (h : Heap) : PyVal → Prop where
  | prim : ∀ s, PlainVal h (.prim s)
  | dict : ∀ i pr es, h.get? i = some ⟨.dict, pr, .dictData es⟩ →
      (es.map Prod.fst).Nodup →
      (∀ kv ∈ es, PlainVal h kv.2) → PlainVal h (.ref i)
  | list : ∀ i pr xs, h.get? i = some ⟨.list, pr, .listData xs⟩ →
      (∀ x ∈ xs, PlainVal h x) → PlainVal h (.ref i)

/-- `ValWF h v p`: the value `v`, stored in tracked container `p`, heads a
well-tracked subtree: every container reachable from it is of a tracked type
and every such container's `parent` attribute is its immediate encloser. -/
inductive ValWF (h : Heap) : PyVal → Nat → Prop where
  | prim : ∀ s p, ValWF h (.prim s) p
  | ref : ∀ i o p, h.get? i = some o → o.ty.isTracked = true →
      o.parent = some p →
      (∀ v ∈ o.data.values, ValWF h v i) → ValWF h (.ref i) p

/-- `NodeWF h i`: object `i` is a tracked container all of whose reachable
descendants are tracked with correct `parent` back-references (the `parent`
of `i` itself is unconstrained: `i` may be a root or sit anywhere). -/
def NodeWF (h : Heap) (i : Nat) : Prop :=
  ∃ o, h.get? i = some o ∧ o.ty.isTracked = true ∧
    ∀ v ∈ o.data.values, ValWF h v i

/-- Heap evolution by pure allocation: all previously allocated ids are
untouched. -/
def AgreesLe (h h' : Heap) : Prop :=
  h.size ≤ h'.size ∧ ∀ i, i < h.size → h'.get? i = h.get? i

/-- `h2` agrees with `h'` on everything `h'` allocated on top of `h`. -/
def FreshAgree (h h' h2 : Heap) : Prop :=
  ∀ i, h.size ≤ i → i < h'.size → h2.get? i = h'.get? i

/-- Like `FreshAgree` but excluding the first allocated id (used below the
constructor that has not yet attached its own object's final fields). -/
def FreshAgree1 (h h' h2 : Heap) : Prop :=
  ∀ i, h.size + 1 ≤ i → i < h'.size → h2.get? i = h'.get? i

/-! ### Heap lemmas -/

theorem Heap.get?_eq_none (h : Heap) (i : Nat) (hle : h.size ≤ i) :
    h.get? i = none := by
  simp [Heap.get?, Heap.size] at *
  omega

theorem Heap.lt_size_of_get? {h : Heap} {i : Nat} {o : Obj}
    (hg : h.get? i = some o) : i < h.size := by
  by_contra hlt
  rw [Heap.get?_eq_none h i (by omega)] at hg
  exact Option.noConfusion hg

theorem Heap.size_set (h : Heap) (i : Nat) (o : Obj) :
    (h.set i o).size = h.size := by
  simp [Heap.set, Heap.size]

theorem Heap.get?_set_self {h : Heap} {i : Nat} (o : Obj) (hlt : i < h.size) :
    (h.set i o).get? i = some o := by
  simp [Heap.set, Heap.get?, Heap.size] at *
  rw [List.getElem?_set_eq_of_lt o hlt]

theorem Heap.get?_set_ne (h : Heap) {i j : Nat} (o : Obj) (hne : j ≠ i) :
    (h.set i o).get? j = h.get? j := by
  simp [Heap.set, Heap.get?]
  rw [List.getElem?_set_ne (by omega)]

theorem Heap.alloc_snd (h : Heap) (o : Obj) : (h.alloc o).2 = h.size := rfl

theorem Heap.alloc_size (h : Heap) (o : Obj) :
    (h.alloc o).1.size = h.size + 1 := by
  simp [Heap.alloc, Heap.size]

theorem Heap.get?_alloc_lt (h : Heap) (o : Obj) {i : Nat} (hlt : i < h.size) :
    (h.alloc o).1.get? i = h.get? i := by
  simp [Heap.alloc, Heap.get?, Heap.size] at *
  rw [List.getElem?_append, if_pos hlt]

theorem Heap.get?_alloc_self (h : Heap) (o : Obj) :
    (h.alloc o).1.get? h.size = some o := by
  simp [Heap.alloc, Heap.get?, Heap.size]

theorem AgreesLe.refl (h : Heap) : AgreesLe h h :=
  ⟨le_refl _, fun _ _ => rfl⟩

theorem AgreesLe.trans {h1 h2 h3 : Heap} (a : AgreesLe h1 h2)
    (b : AgreesLe h2 h3) : AgreesLe h1 h3 :=
  ⟨le_trans a.1 b.1, fun i hi => by rw [b.2 i (lt_of_lt_of_le hi a.1), a.2 i hi]⟩

theorem AgreesLe.alloc (h : Heap) (o : Obj) : AgreesLe h (h.alloc o).1 :=
  ⟨by rw [Heap.alloc_size]; omega, fun i hi => Heap.get?_alloc_lt h o hi⟩

/-! ### Registry lemmas -/

theorem lookup_typeMapping (t : PyType) :
    assocGet typeMapping t =
      if t = .dict then some .trackedDict
      else if t = .list then some .trackedList else none := by
  cases t <;> rfl

theorem lookup_typeMapping_none {t : PyType} (hd : t ≠ .dict)
    (hl : t ≠ .list) : assocGet typeMapping t = none := by
  rw [lookup_typeMapping, if_neg hd, if_neg hl]

theorem lookup_typeMapping_tracked {t r : PyType}
    (hg : assocGet typeMapping t = some r) : r.isTracked = true := by
  rw [lookup_typeMapping] at hg
  by_cases h1 : t = .dict
  · rw [if_pos h1] at hg
    cases hg
    rfl
  · rw [if_neg h1] at hg
    by_cases h2 : t = .list
    · rw [if_pos h2] at hg
      cases hg
      rfl
    · rw [if_neg h2] at hg
      exact Option.noConfusion hg

theorem isTracked_lookup_none {t : PyType} (ht : t.isTracked = true) :
    assocGet typeMapping t = none := by
  cases t <;> simp_all [PyType.isTracked] <;> rfl

/-! ### Lemmas about `changed` -/

theorem Ancestors.ne_nil {h : Heap} {i : Nat} {c : List Nat}
    (a : Ancestors h i c) : c ≠ [] := by
  cases a <;> simp

/-- `changed` is determined by the ancestor chain: whenever it completes, it
invoked the hook exactly on the chain's root and only when that root mixes in
`Mutable`. -/
theorem changed_det {h : Heap} {i : Nat} {c : List Nat}
    (a : Ancestors h i c) :
    ∀ {r : Nat}, c.getLast? = some r → ∀ {fuel : Nat} {ev : List Nat},
      changed fuel h i = some ev →
      ev = if mutableAt h r then [r] else [] := by
  induction a with
  | root i o hg hp =>
    intro r hr fuel ev hev
    cases fuel with
    | zero => exact Option.noConfusion hev
    | succ fuel =>
      simp only [List.getLast?_singleton, Option.some_inj] at hr
      subst hr
      simp only [changed, hg, hp] at hev
      simp only [mutableAt, hg]
      by_cases hm : o.ty.isMutable
      · rw [if_pos hm] at hev
        rw [if_pos hm]
        exact (Option.some_inj.mp hev).symm
      · rw [if_neg hm] at hev
        rw [if_neg hm]
        exact (Option.some_inj.mp hev).symm
  | step i p o rest hg hp _ ih =>
    intro r hr fuel ev hev
    cases fuel with
    | zero => exact Option.noConfusion hev
    | succ fuel =>
      simp only [changed, hg, hp] at hev
      apply ih _ hev
      rw [← hr]
      cases hrestnil : rest with
      | nil => exact absurd hrestnil (Ancestors.ne_nil ‹Ancestors h p rest›)
      | cons b t => exact List.getLast?_cons_cons.symm

/-- With fuel at least the chain length, `changed` completes. -/
theorem changed_total {h : Heap} {i : Nat} {c : List Nat}
    (a : Ancestors h i c) :
    ∀ {fuel : Nat}, c.length ≤ fuel → ∃ ev, changed fuel h i = some ev := by
  induction a with
  | root i o hg hp =>
    intro fuel hf
    cases fuel with
    | zero => simp at hf
    | succ fuel =>
      simp only [changed, hg, hp]
      split <;> exact ⟨_, rfl⟩
  | step i p o rest hg hp hrest ih =>
    intro fuel hf
    cases fuel with
    | zero => simp at hf
    | succ fuel =>
      obtain ⟨ev, hev⟩ := @ih fuel (by simp at hf; omega)
      exact ⟨ev, by simp only [changed, hg, hp]; exact hev⟩

/-- Every public mutating operation calls `changed()` exactly once, as its
first action; whatever it returns — including an error — carries exactly the
hook events of that single `changed` walk. -/
theorem applyOp_events {fuel : Nat} {h : Heap} {selfId : Nat} {op : MutOp}
    {res : OpResult} (happ : applyOp fuel h selfId op = some res) :
    changed fuel h selfId = some res.events := by
  cases op <;>
    simp only [applyOp, dictSetItem, dictDelItem, dictClear, dictPop,
      dictPopItem, dictUpdate, listSetItem, listDelItem, listAppend,
      listExtend, listRemove, listPop, listSort] at happ <;>
    (repeat' split at happ) <;>
    first
      | exact Option.noConfusion happ
      | (cases happ; assumption)

/-! ### Transfer lemmas: well-trackedness survives heap growth and survives
replacing one object's payload by well-tracked values -/

theorem plainVal_mono {h h' : Heap}
    (hsub : ∀ i o, h.get? i = some o → h'.get? i = some o) :
    ∀ {v}, PlainVal h v → PlainVal h' v := by
  intro v hp
  induction hp with
  | prim s => exact .prim s
  | dict i pr es hg hnd _ ih => exact .dict i pr es (hsub i _ hg) hnd ih
  | list i pr xs hg _ ih => exact .list i pr xs (hsub i _ hg) ih

theorem AgreesLe.sub {h h' : Heap} (ha : AgreesLe h h') :
    ∀ i o, h.get? i = some o → h'.get? i = some o := by
  intro i o hg
  rw [ha.2 i (Heap.lt_size_of_get? hg)]
  exact hg

theorem valWF_mono {h h' : Heap}
    (hsub : ∀ i o, h.get? i = some o → h'.get? i = some o) :
    ∀ {v p}, ValWF h v p → ValWF h' v p := by
  intro v p hwf
  induction hwf with
  | prim s p => exact .prim s p
  | ref i o p hg ht hp _ ih => exact .ref i o p (hsub i o hg) ht hp ih

theorem nodeWF_mono {h h' : Heap}
    (hsub : ∀ i o, h.get? i = some o → h'.get? i = some o) {r : Nat}
    (hn : NodeWF h r) : NodeWF h' r := by
  obtain ⟨o, hg, ht, hkids⟩ := hn
  exact ⟨o, hsub r o hg, ht, fun v hv => valWF_mono hsub (hkids v hv)⟩

/-- Replacing the payload of one tracked object with values that are either
old values of that object or freshly well-tracked children of it preserves
the well-trackedness of every value (type and `parent` of the rewritten
object and all other old objects are untouched). -/
theorem valWF_transfer {h h' : Heap} {selfId : Nat} {oldObj : Obj}
    {newData : ObjData}
    (hold : h.get? selfId = some oldObj)
    (hnew : h'.get? selfId = some ⟨oldObj.ty, oldObj.parent, newData⟩)
    (hother : ∀ i o, i ≠ selfId → h.get? i = some o → h'.get? i = some o)
    (hvals : ∀ v ∈ newData.values, v ∈ oldObj.data.values ∨ ValWF h' v selfId) :
    ∀ {v p}, ValWF h v p → ValWF h' v p := by
  intro v p hwf
  induction hwf with
  | prim s p => exact .prim s p
  | ref i o p hg ht hp hkids ih =>
    by_cases hi : i = selfId
    · subst hi
      rw [hold] at hg
      cases hg
      refine .ref i ⟨oldObj.ty, oldObj.parent, newData⟩ p hnew ht hp ?_
      intro v hv
      rcases hvals v hv with hmem | hwf'
      · exact ih v hmem
      · exact hwf'
    · exact .ref i o p (hother i o hi hg) ht hp ih

theorem nodeWF_transfer {h h' : Heap} {selfId : Nat} {oldObj : Obj}
    {newData : ObjData}
    (hold : h.get? selfId = some oldObj)
    (hnew : h'.get? selfId = some ⟨oldObj.ty, oldObj.parent, newData⟩)
    (hother : ∀ i o, i ≠ selfId → h.get? i = some o → h'.get? i = some o)
    (hvals : ∀ v ∈ newData.values, v ∈ oldObj.data.values ∨ ValWF h' v selfId) :
    ∀ r, NodeWF h r → NodeWF h' r := by
  intro r hn
  obtain ⟨o, hg, ht, hkids⟩ := hn
  by_cases hr : r = selfId
  · subst hr
    rw [hold] at hg
    cases hg
    refine ⟨⟨oldObj.ty, oldObj.parent, newData⟩, hnew, ht, ?_⟩
    intro v hv
    rcases hvals v hv with hmem | hwf'
    · exact valWF_transfer hold hnew hother hvals (hkids v hmem)
    · exact hwf'
  · exact ⟨o, hother r o hr hg, ht,
      fun v hv => valWF_transfer hold hnew hother hvals (hkids v hv)⟩

/-! ### `toTree` only looks at the objects a plain value reaches -/

theorem toTree_congr_plain {h h' : Heap} (ha : AgreesLe h h') :
    ∀ g : Nat,
      (∀ v, PlainVal h v → toTree g h' v = toTree g h v) ∧
      (∀ es : List (String × PyVal), (∀ kv ∈ es, PlainVal h kv.2) →
        toTreeEntries g h' es = toTreeEntries g h es) ∧
      (∀ xs : List PyVal, (∀ x ∈ xs, PlainVal h x) →
        toTreeElems g h' xs = toTreeElems g h xs) := by
  intro g
  induction g with
  | zero => exact ⟨fun _ _ => rfl, fun _ _ => rfl, fun _ _ => rfl⟩
  | succ g ih =>
    refine ⟨?_, ?_, ?_⟩
    · intro v hp
      cases hp with
      | prim s => rfl
      | dict i pr es hg hnd hkids =>
        rw [show toTree (g + 1) h (.ref i) =
            (match toTreeEntries g h es with
              | none => none
              | some ts => some (.dict ts)) by simp only [toTree, hg]]
        rw [show toTree (g + 1) h' (.ref i) =
            (match toTreeEntries g h' es with
              | none => none
              | some ts => some (.dict ts)) by
          simp only [toTree, ha.sub i _ hg]]
        rw [ih.2.1 es hkids]
      | list i pr xs hg hkids =>
        rw [show toTree (g + 1) h (.ref i) =
            (match toTreeElems g h xs with
              | none => none
              | some ts => some (.list ts)) by simp only [toTree, hg]]
        rw [show toTree (g + 1) h' (.ref i) =
            (match toTreeElems g h' xs with
              | none => none
              | some ts => some (.list ts)) by
          simp only [toTree, ha.sub i _ hg]]
        rw [ih.2.2 xs hkids]
    · intro es hkids
      cases es with
      | nil => rfl
      | cons kv rest =>
        simp only [toTreeEntries]
        rw [ih.1 kv.2 (hkids kv (by simp)),
          ih.2.1 rest (fun kv' hkv' => hkids kv' (by simp [hkv']))]
    · intro xs hkids
      cases xs with
      | nil => rfl
      | cons x rest =>
        simp only [toTreeElems]
        rw [ih.1 x (hkids x (by simp)),
          ih.2.2 rest (fun x' hx' => hkids x' (by simp [hx']))]

/-! ### Specification of `convert` on plain inputs -/

/-- Plainness of a payload (what sits inside a plain `dict`/`list` object). -/
def PlainData (h : Heap) : ObjData → Prop
  | .dictData es => (es.map Prod.fst).Nodup ∧ ∀ kv ∈ es, PlainVal h kv.2
  | .listData xs => ∀ x ∈ xs, PlainVal h x

/-- The plain tree of a payload (the branch bodies of `toTree`). -/
def dataTrees (g : Nat) (h : Heap) : ObjData → Option JTree
  | .dictData es =>
    match toTreeEntries g h es with
    | none => none
    | some ts => some (.dict ts)
  | .listData xs =>
    match toTreeElems g h xs with
    | none => none
    | some ts => some (.list ts)

/-- Contract of `convert` at fuel `n` on plain values: the old heap is
untouched, the result read in any heap agreeing on the freshly allocated
range is a well-tracked subtree with the given parent, and its plain tree is
that of the input. -/
def ConvertSpec (n : Nat) : Prop :=
  ∀ h v pid h' v', PlainVal h v → convert n h v pid = some (h', v') →
    AgreesLe h h' ∧
    (∀ h2, FreshAgree h h' h2 → ValWF h2 v' pid) ∧
    (∀ g h2, FreshAgree h h' h2 → toTree g h2 v' = toTree g h v)

/-- Contract of `newTracked` (the `replacement_type(obj)` constructor call):
the fresh object sits at the old heap top, its `parent` is still `None`, its
members are well-tracked children of it, and its plain tree is the input's.
The member clauses hold in any heap agreeing above the fresh object's own id,
so they survive the subsequent `new.parent = parent` assignment. -/
def NewTrackedSpec (n : Nat) : Prop :=
  ∀ h ty data h' nid, PlainData h data → newTracked n h ty data = some (h', nid) →
    AgreesLe h h' ∧ nid = h.size ∧ h.size < h'.size ∧
    ∃ data',
      h'.get? nid = some ⟨ty, none, data'⟩ ∧
      (∀ h2, FreshAgree1 h h' h2 → ∀ v ∈ data'.values, ValWF h2 v nid) ∧
      (∀ g h2, FreshAgree1 h h' h2 → dataTrees g h2 data' = dataTrees g h data)

def EntriesSpec (n : Nat) : Prop :=
  ∀ h es pid h' es', (∀ kv ∈ es, PlainVal h kv.2) →
    convEntries n h es pid = some (h', es') →
    AgreesLe h h' ∧ es'.map Prod.fst = es.map Prod.fst ∧
    (∀ h2, FreshAgree h h' h2 → ∀ kv ∈ es', ValWF h2 kv.2 pid) ∧
    (∀ g h2, FreshAgree h h' h2 → toTreeEntries g h2 es' = toTreeEntries g h es)

def ElemsSpec (n : Nat) : Prop :=
  ∀ h xs pid h' xs', (∀ x ∈ xs, PlainVal h x) →
    convElems n h xs pid = some (h', xs') →
    AgreesLe h h' ∧
    (∀ h2, FreshAgree h h' h2 → ∀ x ∈ xs', ValWF h2 x pid) ∧
    (∀ g h2, FreshAgree h h' h2 → toTreeElems g h2 xs' = toTreeElems g h xs)

/-! #### Composition helpers for agreement ranges -/

theorem freshAgree_left {h h1 h2 hh2 : Heap} (a12 : AgreesLe h1 h2)
    (hfa : FreshAgree h h2 hh2) : FreshAgree h h1 hh2 := by
  intro i hge hlt
  rw [hfa i hge (lt_of_lt_of_le hlt a12.1), a12.2 i hlt]

theorem freshAgree_right {h h1 h2 hh2 : Heap} (a01 : AgreesLe h h1)
    (hfa : FreshAgree h h2 hh2) : FreshAgree h1 h2 hh2 := by
  intro i hge hlt
  exact hfa i (le_trans a01.1 hge) hlt

/-! #### `dict(pairs)` on duplicate-free pairs keeps them as they are -/

theorem assocSet_append_of_not_mem {κ α : Type} [DecidableEq κ]
    (acc : List (κ × α)) (k : κ) (v : α) (hk : k ∉ acc.map Prod.fst) :
    assocSet acc k v = acc ++ [(k, v)] := by
  induction acc with
  | nil => rfl
  | cons kv rest ih =>
    simp only [List.map_cons, List.mem_cons] at hk
    push_neg at hk
    simp only [assocSet]
    rw [if_neg (fun heq => hk.1 heq.symm), ih hk.2]
    rfl

theorem foldl_assocSet_of_nodup {κ α : Type} [DecidableEq κ] :
    ∀ (ps acc : List (κ × α)), (ps.map Prod.fst).Nodup →
      (∀ k ∈ ps.map Prod.fst, k ∉ acc.map Prod.fst) →
      ps.foldl (fun acc kv => assocSet acc kv.1 kv.2) acc = acc ++ ps := by
  intro ps
  induction ps with
  | nil => intro acc _ _; simp
  | cons kv rest ih =>
    intro acc hnd hdisj
    simp only [List.map_cons, List.nodup_cons] at hnd
    simp only [List.foldl_cons]
    rw [assocSet_append_of_not_mem acc kv.1 kv.2
      (hdisj kv.1 (by simp))]
    rw [ih (acc ++ [(kv.1, kv.2)]) hnd.2 ?_]
    · simp
    · intro k hk
      simp only [List.map_append, List.mem_append]
      push_neg
      constructor
      · exact hdisj k (by simp [hk])
      · simp only [List.map_cons, List.map_nil, List.mem_singleton]
        intro heq
        exact hnd.1 (heq ▸ hk)

theorem dictFromPairs_eq_self {κ α : Type} [DecidableEq κ]
    (ps : List (κ × α)) (hnd : (ps.map Prod.fst).Nodup) :
    dictFromPairs ps = ps := by
  unfold dictFromPairs
  rw [foldl_assocSet_of_nodup ps [] hnd (by simp)]
  simp

theorem elemsSpec_step (n : Nat) (hcs : ConvertSpec n) (hxs : ElemsSpec n) :
    ElemsSpec (n + 1) := by
  intro h xs pid h' xs' hplain hce
  cases xs with
  | nil =>
    simp only [convElems] at hce
    cases hce
    exact ⟨AgreesLe.refl h, fun _ _ _ hx => absurd hx (List.not_mem_nil _),
      fun g h2 _ => by cases g <;> rfl⟩
  | cons x rest =>
    simp only [convElems] at hce
    split at hce
    · exact Option.noConfusion hce
    · rename_i h1 v1 hcv
      split at hce
      · exact Option.noConfusion hce
      · rename_i h2x rest' hcr
        cases hce
        obtain ⟨a01, wf1, tr1⟩ := hcs h x pid h1 v1 (hplain x (by simp)) hcv
        obtain ⟨a12, wf2, tr2⟩ := hxs h1 rest pid _ _
          (fun y hy => plainVal_mono (AgreesLe.sub a01) (hplain y (by simp [hy]))) hcr
        refine ⟨a01.trans a12, ?_, ?_⟩
        · intro hh2 hfa y hy
          rcases List.mem_cons.mp hy with rfl | hy'
          · exact wf1 hh2 (freshAgree_left a12 hfa)
          · exact wf2 hh2 (freshAgree_right a01 hfa) y hy'
        · intro g hh2 hfa
          cases g with
          | zero => rfl
          | succ g =>
            simp only [toTreeElems]
            rw [tr1 g hh2 (freshAgree_left a12 hfa),
              tr2 g hh2 (freshAgree_right a01 hfa),
              (toTree_congr_plain a01 g).2.2 rest
                (fun y hy => hplain y (by simp [hy]))]

theorem entriesSpec_step (n : Nat) (hcs : ConvertSpec n) (hes : EntriesSpec n) :
    EntriesSpec (n + 1) := by
  intro h es pid h' es' hplain hce
  cases es with
  | nil =>
    simp only [convEntries] at hce
    cases hce
    exact ⟨AgreesLe.refl h, rfl, fun _ _ _ hx => absurd hx (List.not_mem_nil _),
      fun g h2 _ => by cases g <;> rfl⟩
  | cons kv rest =>
    simp only [convEntries] at hce
    split at hce
    · exact Option.noConfusion hce
    · rename_i h1 v1 hcv
      split at hce
      · exact Option.noConfusion hce
      · rename_i h2x rest' hcr
        cases hce
        obtain ⟨a01, wf1, tr1⟩ := hcs h kv.2 pid h1 v1 (hplain kv (by simp)) hcv
        obtain ⟨a12, hkeys, wf2, tr2⟩ := hes h1 rest pid _ _
          (fun y hy => plainVal_mono (AgreesLe.sub a01) (hplain y (by simp [hy]))) hcr
        refine ⟨a01.trans a12, by simp [hkeys], ?_, ?_⟩
        · intro hh2 hfa y hy
          rcases List.mem_cons.mp hy with rfl | hy'
          · exact wf1 hh2 (freshAgree_left a12 hfa)
          · exact wf2 hh2 (freshAgree_right a01 hfa) y hy'
        · intro g hh2 hfa
          cases g with
          | zero => rfl
          | succ g =>
            simp only [toTreeEntries]
            rw [tr1 g hh2 (freshAgree_left a12 hfa),
              tr2 g hh2 (freshAgree_right a01 hfa),
              (toTree_congr_plain a01 g).2.1 rest
                (fun y hy => hplain y (by simp [hy]))]

theorem newTrackedSpec_step (n : Nat) (hes : EntriesSpec n) (hxs : ElemsSpec n) :
    NewTrackedSpec (n + 1) := by
  intro h ty data h' nid hpd hnt
  cases data with
  | dictData es =>
    obtain ⟨hnd, hkids⟩ := hpd
    simp only [newTracked, ObjData.emptyLike, Heap.alloc] at hnt
    split at hnt
    · exact Option.noConfusion hnt
    · rename_i h2 es' hce
      cases hnt
      have ha01 : AgreesLe h ⟨h.objs ++ [⟨ty, none, ObjData.dictData []⟩]⟩ :=
        AgreesLe.alloc h ⟨ty, none, ObjData.dictData []⟩
      obtain ⟨a12, hkeys, wf2, tr2⟩ := hes _ es h.objs.length h2 es'
        (fun kv hkv => plainVal_mono (AgreesLe.sub ha01) (hkids kv hkv)) hce
      have hsz1 : (⟨h.objs ++ [⟨ty, none, ObjData.dictData []⟩]⟩ : Heap).size
          = h.size + 1 := by simp [Heap.size]
      have hnidlt : h.objs.length < h2.size := by
        have := a12.1
        rw [hsz1] at this
        simp only [Heap.size] at *
        omega
      have hdfp : dictFromPairs es' = es' :=
        dictFromPairs_eq_self es' (by rw [hkeys]; exact hnd)
      rw [hdfp]
      have hfa12 : ∀ hh2 : Heap,
          FreshAgree1 h (h2.set h.objs.length ⟨ty, none, ObjData.dictData es'⟩) hh2 →
          FreshAgree ⟨h.objs ++ [⟨ty, none, ObjData.dictData []⟩]⟩ h2 hh2 := by
        intro hh2 hfa1 i hge hlt
        rw [hsz1] at hge
        rw [hfa1 i hge (by rw [Heap.size_set]; exact hlt)]
        exact Heap.get?_set_ne h2 _ (by simp only [Heap.size] at hge; omega)
      refine ⟨?_, rfl, ?_, ObjData.dictData es', ?_, ?_, ?_⟩
      · constructor
        · rw [Heap.size_set]
          have := a12.1
          rw [hsz1] at this
          omega
        · intro i hi
          rw [Heap.get?_set_ne h2 _ (by simp only [Heap.size] at hi; omega),
            a12.2 i (by rw [hsz1]; omega), ha01.2 i hi]
      · rw [Heap.size_set]
        simp only [Heap.size] at *
        omega
      · exact Heap.get?_set_self _ hnidlt
      · intro hh2 hfa1 v hv
        simp only [ObjData.values, List.mem_map] at hv
        obtain ⟨kv, hkv, rfl⟩ := hv
        exact wf2 hh2 (hfa12 hh2 hfa1) kv hkv
      · intro g hh2 hfa1
        simp only [dataTrees]
        rw [tr2 g hh2 (hfa12 hh2 hfa1),
          (toTree_congr_plain ha01 g).2.1 es hkids]
  | listData xs =>
    simp only [newTracked, ObjData.emptyLike, Heap.alloc] at hnt
    split at hnt
    · exact Option.noConfusion hnt
    · rename_i h2 xs' hce
      cases hnt
      have ha01 : AgreesLe h ⟨h.objs ++ [⟨ty, none, ObjData.listData []⟩]⟩ :=
        AgreesLe.alloc h ⟨ty, none, ObjData.listData []⟩
      obtain ⟨a12, wf2, tr2⟩ := hxs _ xs h.objs.length h2 xs'
        (fun x hx => plainVal_mono (AgreesLe.sub ha01) (hpd x hx)) hce
      have hsz1 : (⟨h.objs ++ [⟨ty, none, ObjData.listData []⟩]⟩ : Heap).size
          = h.size + 1 := by simp [Heap.size]
      have hnidlt : h.objs.length < h2.size := by
        have := a12.1
        rw [hsz1] at this
        simp only [Heap.size] at *
        omega
      have hfa12 : ∀ hh2 : Heap,
          FreshAgree1 h (h2.set h.objs.length ⟨ty, none, ObjData.listData xs'⟩) hh2 →
          FreshAgree ⟨h.objs ++ [⟨ty, none, ObjData.listData []⟩]⟩ h2 hh2 := by
        intro hh2 hfa1 i hge hlt
        rw [hsz1] at hge
        rw [hfa1 i hge (by rw [Heap.size_set]; exact hlt)]
        exact Heap.get?_set_ne h2 _ (by simp only [Heap.size] at hge; omega)
      refine ⟨?_, rfl, ?_, ObjData.listData xs', ?_, ?_, ?_⟩
      · constructor
        · rw [Heap.size_set]
          have := a12.1
          rw [hsz1] at this
          omega
        · intro i hi
          rw [Heap.get?_set_ne h2 _ (by simp only [Heap.size] at hi; omega),
            a12.2 i (by rw [hsz1]; omega), ha01.2 i hi]
      · rw [Heap.size_set]
        simp only [Heap.size] at *
        omega
      · exact Heap.get?_set_self _ hnidlt
      · intro hh2 hfa1 v hv
        simp only [ObjData.values] at hv
        exact wf2 hh2 (hfa12 hh2 hfa1) v hv
      · intro g hh2 hfa1
        simp only [dataTrees]
        rw [tr2 g hh2 (hfa12 hh2 hfa1),
          (toTree_congr_plain ha01 g).2.2 xs hpd]

theorem convertSpec_step (n : Nat) (hnts : NewTrackedSpec n) :
    ConvertSpec (n + 1) := by
  intro h v pid h' v' hp hc
  cases hp with
  | prim s =>
    simp only [convert] at hc
    cases hc
    exact ⟨AgreesLe.refl h, fun _ _ => .prim s pid, fun g h2 _ => by cases g <;> rfl⟩
  | dict i pr es hg hnd hkids =>
    simp only [convert, hg] at hc
    split at hc
    · rename_i heqn
      rw [show assocGet typeMapping (Obj.mk .dict pr (.dictData es)).ty
          = some PyType.trackedDict from rfl] at heqn
      exact Option.noConfusion heqn
    · rename_i replTy hrepl
      have hre : replTy = .trackedDict := by
        rw [show assocGet typeMapping (Obj.mk .dict pr (.dictData es)).ty
            = some PyType.trackedDict from rfl] at hrepl
        exact (Option.some_inj.mp hrepl).symm
      subst hre
      split at hc
      · exact Option.noConfusion hc
      · rename_i h1 nid hntc
        cases hc
        obtain ⟨a01, hnid, hlt, data', hgetn, kids, trees⟩ :=
          hnts h .trackedDict (.dictData es) h1 nid ⟨hnd, hkids⟩ hntc
        have hsp : h1.setParent nid (some pid)
            = h1.set nid ⟨.trackedDict, some pid, data'⟩ := by
          simp only [Heap.setParent, hgetn]
        rw [hsp]
        have hnidlt1 : nid < h1.size := by omega
        have hfa1 : ∀ h2 : Heap,
            FreshAgree h (h1.set nid ⟨.trackedDict, some pid, data'⟩) h2 →
            FreshAgree1 h h1 h2 := by
          intro h2 hfa j hge hlt2
          rw [hfa j (by omega) (by rw [Heap.size_set]; exact hlt2)]
          exact Heap.get?_set_ne h1 _ (by omega)
        have hget2 : ∀ h2 : Heap,
            FreshAgree h (h1.set nid ⟨.trackedDict, some pid, data'⟩) h2 →
            h2.get? nid = some ⟨.trackedDict, some pid, data'⟩ := by
          intro h2 hfa
          rw [hfa nid (by omega) (by rw [Heap.size_set]; exact hnidlt1)]
          exact Heap.get?_set_self _ hnidlt1
        refine ⟨?_, ?_, ?_⟩
        · constructor
          · rw [Heap.size_set]; omega
          · intro j hj
            rw [Heap.get?_set_ne h1 _ (by omega), a01.2 j hj]
        · intro h2 hfa
          refine .ref nid ⟨.trackedDict, some pid, data'⟩ pid (hget2 h2 hfa) rfl rfl ?_
          exact kids h2 (hfa1 h2 hfa)
        · intro g h2 hfa
          cases g with
          | zero => rfl
          | succ g =>
            have tt := trees g h2 (hfa1 h2 hfa)
            simp only [toTree, hget2 h2 hfa, hg]
            cases data' <;> simp only [dataTrees] at tt <;> exact tt
  | list i pr xs hg hkids =>
    simp only [convert, hg] at hc
    split at hc
    · rename_i heqn
      rw [show assocGet typeMapping (Obj.mk .list pr (.listData xs)).ty
          = some PyType.trackedList from rfl] at heqn
      exact Option.noConfusion heqn
    · rename_i replTy hrepl
      have hre : replTy = .trackedList := by
        rw [show assocGet typeMapping (Obj.mk .list pr (.listData xs)).ty
            = some PyType.trackedList from rfl] at hrepl
        exact (Option.some_inj.mp hrepl).symm
      subst hre
      split at hc
      · exact Option.noConfusion hc
      · rename_i h1 nid hntc
        cases hc
        obtain ⟨a01, hnid, hlt, data', hgetn, kids, trees⟩ :=
          hnts h .trackedList (.listData xs) h1 nid hkids hntc
        have hsp : h1.setParent nid (some pid)
            = h1.set nid ⟨.trackedList, some pid, data'⟩ := by
          simp only [Heap.setParent, hgetn]
        rw [hsp]
        have hnidlt1 : nid < h1.size := by omega
        have hfa1 : ∀ h2 : Heap,
            FreshAgree h (h1.set nid ⟨.trackedList, some pid, data'⟩) h2 →
            FreshAgree1 h h1 h2 := by
          intro h2 hfa j hge hlt2
          rw [hfa j (by omega) (by rw [Heap.size_set]; exact hlt2)]
          exact Heap.get?_set_ne h1 _ (by omega)
        have hget2 : ∀ h2 : Heap,
            FreshAgree h (h1.set nid ⟨.trackedList, some pid, data'⟩) h2 →
            h2.get? nid = some ⟨.trackedList, some pid, data'⟩ := by
          intro h2 hfa
          rw [hfa nid (by omega) (by rw [Heap.size_set]; exact hnidlt1)]
          exact Heap.get?_set_self _ hnidlt1
        refine ⟨?_, ?_, ?_⟩
        · constructor
          · rw [Heap.size_set]; omega
          · intro j hj
            rw [Heap.get?_set_ne h1 _ (by omega), a01.2 j hj]
        · intro h2 hfa
          refine .ref nid ⟨.trackedList, some pid, data'⟩ pid (hget2 h2 hfa) rfl rfl ?_
          exact kids h2 (hfa1 h2 hfa)
        · intro g h2 hfa
          cases g with
          | zero => rfl
          | succ g =>
            have tt := trees g h2 (hfa1 h2 hfa)
            simp only [toTree, hget2 h2 hfa, hg]
            cases data' <;> simp only [dataTrees] at tt <;> exact tt

/-- The combined contract of the conversion machinery, for every fuel. -/
theorem convertSpecAll :
    ∀ n, ConvertSpec n ∧ NewTrackedSpec n ∧ EntriesSpec n ∧ ElemsSpec n := by
  intro n
  induction n with
  | zero =>
    refine ⟨?_, ?_, ?_, ?_⟩
    · intro h v pid h' v' _ hc
      exact Option.noConfusion hc
    · intro h ty data h' nid _ hc
      exact Option.noConfusion hc
    · intro h es pid h' es' _ hc
      exact Option.noConfusion hc
    · intro h xs pid h' xs' _ hc
      exact Option.noConfusion hc
  | succ n ih =>
    exact ⟨convertSpec_step n ih.2.1,
      newTrackedSpec_step n ih.2.2.1 ih.2.2.2,
      entriesSpec_step n ih.1 ih.2.2.1,
      elemsSpec_step n ih.1 ih.2.2.2⟩

/-! ### Membership of values after native container writes -/

theorem mem_snd_assocSet {κ α : Type} [DecidableEq κ] :
    ∀ (es : List (κ × α)) (k : κ) (w v : α),
      v ∈ (assocSet es k w).map Prod.snd → v = w ∨ v ∈ es.map Prod.snd := by
  intro es k w v hv
  induction es with
  | nil =>
    simp only [assocSet, List.map_cons, List.map_nil, List.mem_singleton] at hv
    exact Or.inl hv
  | cons kv rest ih =>
    simp only [assocSet] at hv
    by_cases hk : kv.1 = k
    · rw [if_pos hk] at hv
      simp only [List.map_cons, List.mem_cons] at hv
      rcases hv with hv | hv
      · exact Or.inl hv
      · exact Or.inr (by simp [hv])
    · rw [if_neg hk] at hv
      simp only [List.map_cons, List.mem_cons] at hv
      rcases hv with hv | hv
      · exact Or.inr (by simp [hv])
      · rcases ih hv with hv' | hv'
        · exact Or.inl hv'
        · exact Or.inr (by simp [hv'])

theorem mem_snd_foldl_assocSet {κ α : Type} [DecidableEq κ] :
    ∀ (ps es : List (κ × α)) (v : α),
      v ∈ (ps.foldl (fun acc kv => assocSet acc kv.1 kv.2) es).map Prod.snd →
      v ∈ es.map Prod.snd ∨ v ∈ ps.map Prod.snd := by
  intro ps
  induction ps with
  | nil => intro es v hv; exact Or.inl hv
  | cons kv rest ih =>
    intro es v hv
    simp only [List.foldl_cons] at hv
    rcases ih (assocSet es kv.1 kv.2) v hv with hv' | hv'
    · rcases mem_snd_assocSet es kv.1 kv.2 v hv' with hv'' | hv''
      · exact Or.inr (by simp [hv''])
      · exact Or.inl hv''
    · exact Or.inr (by simp [hv'])

theorem mem_of_mem_set {α : Type} :
    ∀ (xs : List α) (j : Nat) (w v : α), v ∈ xs.set j w → v = w ∨ v ∈ xs := by
  intro xs
  induction xs with
  | nil => intro j w v hv; simp at hv
  | cons x rest ih =>
    intro j w v hv
    cases j with
    | zero =>
      simp only [List.set_cons_zero, List.mem_cons] at hv
      rcases hv with hv | hv
      · exact Or.inl hv
      · exact Or.inr (by simp [hv])
    | succ j =>
      simp only [List.set_cons_succ, List.mem_cons] at hv
      rcases hv with hv | hv
      · exact Or.inr (by simp [hv])
      · rcases ih j w v hv with hv' | hv'
        · exact Or.inl hv'
        · exact Or.inr (by simp [hv'])

/-! ### Insertion of plain structures (claim C2 apparatus) -/

/-- The mutating operations that insert new values, with all inserted values
plain. -/
def InsertsPlain (h : Heap) : MutOp → Prop
  | .dSet _ v => PlainVal h v
  | .dUpdate src kwds => ∀ kv ∈ src ++ kwds, PlainVal h kv.2
  | .lSet _ v => PlainVal h v
  | .lAppend v => PlainVal h v
  | .lExtend vs => ∀ x ∈ vs, PlainVal h x
  | _ => False

/-- An insertion event: constructing a tracked container from a plain source,
or running a value-inserting mutation on an existing tracked container. -/
inductive InsOp where
  | construct (nested : Bool) (source : PyVal)
  | mutate (op : MutOp)

def InsPre (h : Heap) (selfId : Nat) : InsOp → Prop
  | .construct _ v => PlainVal h v
  | .mutate op => NodeWF h selfId ∧ InsertsPlain h op

/-- Run the insertion; the returned id is the constructed container for
`construct` and the mutated container for `mutate` (only successful
mutations count). -/
def applyInsertion (fuel : Nat) (h : Heap) (selfId : Nat) :
    InsOp → Option (Heap × Nat)
  | .construct nested v =>
    match constructTracked fuel nested h v with
    | some (_, h', nid) => some (h', nid)
    | none => none
  | .mutate op =>
    match applyOp fuel h selfId op with
    | none => none
    | some r =>
      match r.out with
      | .ok (h', _) => some (h', selfId)
      | .error _ => none

/-- After a native write that keeps the mutated object's type and `parent`
and stores only old values or freshly well-tracked children, every
well-tracked node of the old heap is still well-tracked. -/
theorem insert_preserves {h hmid : Heap} {selfId : Nat} {oS : Obj}
    {newData : ObjData}
    (hgS : h.get? selfId = some oS)
    (amid : AgreesLe h hmid)
    (hvals : ∀ w ∈ newData.values, w ∈ oS.data.values ∨
      ValWF (hmid.set selfId ⟨oS.ty, oS.parent, newData⟩) w selfId) :
    ∀ r, NodeWF h r → NodeWF (hmid.set selfId ⟨oS.ty, oS.parent, newData⟩) r := by
  have hlt : selfId < h.size := Heap.lt_size_of_get? hgS
  have hnew : (hmid.set selfId ⟨oS.ty, oS.parent, newData⟩).get? selfId
      = some ⟨oS.ty, oS.parent, newData⟩ :=
    Heap.get?_set_self _ (lt_of_lt_of_le hlt amid.1)
  have hother : ∀ i o2, i ≠ selfId → h.get? i = some o2 →
      (hmid.set selfId ⟨oS.ty, oS.parent, newData⟩).get? i = some o2 := by
    intro i o2 hne hg
    rw [Heap.get?_set_ne _ _ hne]
    exact amid.sub i o2 hg
  exact nodeWF_transfer hgS hnew hother hvals

/-- The heap after overwriting an old object still agrees with the conversion
heap on the freshly converted range. -/
theorem freshAgree_set_outside {h hmid : Heap} {selfId : Nat} (o : Obj)
    (hlt : selfId < h.size) : FreshAgree h hmid (hmid.set selfId o) := by
  intro i hge _
  exact Heap.get?_set_ne hmid o (by omega)

/-- C2: inserting a plain nested structure anywhere into a tracked tree (by
construction, `__setitem__`, `update`, `append`, `extend` or sequence
`__setitem__`) wraps it: the focused container (the constructed root, resp.
the mutated container) is fully well-tracked — every container reachable
from it is a tracked type and every such container's `parent` is its
immediate encloser — and every container that was fully well-tracked before,
in particular the root, still is. -/
theorem c2_wrapping_closure (fuel : Nat) (h : Heap) (selfId : Nat)
    (iop : InsOp) (h' : Heap) (focus : Nat)
    (hpre : InsPre h selfId iop)
    (happ : applyInsertion fuel h selfId iop = some (h', focus)) :
    NodeWF h' focus ∧ ∀ r, NodeWF h r → NodeWF h' r := by
  cases iop with
  | construct nested v =>
    have hplain : PlainVal h v := hpre
    simp only [applyInsertion] at happ
    split at happ
    · rename_i ev hres nid hct
      cases happ
      cases hplain with
      | prim s => simp [constructTracked] at hct
      | dict i pr es hg hnd hkids =>
        simp only [constructTracked, hg] at hct
        split at hct
        · exact Option.noConfusion hct
        · rename_i h1 nid1 hntc
          cases hct
          obtain ⟨a01, hnid, hlt, data', hgetn, kids, trees⟩ :=
            (convertSpecAll fuel).2.1 h _ (.dictData es) h' focus
              ⟨hnd, hkids⟩ hntc
          refine ⟨⟨⟨_, none, data'⟩, hgetn, by cases nested <;> rfl, ?_⟩, ?_⟩
          · exact kids h' (fun i _ _ => rfl)
          · intro r hr
            exact nodeWF_mono (AgreesLe.sub a01) hr
      | list i pr xs hg hkids =>
        simp only [constructTracked, hg] at hct
        split at hct
        · exact Option.noConfusion hct
        · rename_i h1 nid1 hntc
          cases hct
          obtain ⟨a01, hnid, hlt, data', hgetn, kids, trees⟩ :=
            (convertSpecAll fuel).2.1 h _ (.listData xs) h' focus hkids hntc
          refine ⟨⟨⟨_, none, data'⟩, hgetn, by cases nested <;> rfl, ?_⟩, ?_⟩
          · exact kids h' (fun i _ _ => rfl)
          · intro r hr
            exact nodeWF_mono (AgreesLe.sub a01) hr
    · exact Option.noConfusion happ
  | mutate op =>
    obtain ⟨hself, hins⟩ := hpre
    obtain ⟨oS, hgS, htS, hkS⟩ := hself
    have hltS : selfId < h.size := Heap.lt_size_of_get? hgS
    simp only [applyInsertion] at happ
    split at happ
    · exact Option.noConfusion happ
    · rename_i r heqApply
      split at happ
      · rename_i hres ret heqOut
        cases happ
        cases op with
        | dSet k v =>
          simp only [applyOp, dictSetItem] at heqApply
          split at heqApply
          · exact Option.noConfusion heqApply
          rename_i ev hchg
          split at heqApply
          · exact Option.noConfusion heqApply
          rename_i h1 v' hcv
          split at heqApply
          · exact Option.noConfusion heqApply
          rename_i o hget1
          split at heqApply
          · rename_i es hdata
            cases heqApply
            cases heqOut
            obtain ⟨a01, wfc, trc⟩ :=
              (convertSpecAll fuel).1 h v selfId h1 v' hins hcv
            rw [a01.2 selfId hltS, hgS] at hget1
            cases hget1
            have hvals : ∀ w ∈ (ObjData.dictData (assocSet es k v')).values,
                w ∈ oS.data.values ∨
                ValWF (h1.set selfId ⟨oS.ty, oS.parent,
                  .dictData (assocSet es k v')⟩) w selfId := by
              intro w hw
              simp only [ObjData.values] at hw
              rcases mem_snd_assocSet es k v' w hw with rfl | hw'
              · exact Or.inr (wfc _ (freshAgree_set_outside _ hltS))
              · rw [hdata]
                exact Or.inl (by simpa [ObjData.values] using hw')
            have hpres := insert_preserves hgS a01 hvals
            exact ⟨hpres selfId ⟨oS, hgS, htS, hkS⟩, hpres⟩
          · exact Option.noConfusion heqApply
        | dUpdate src kwds =>
          simp only [applyOp, dictUpdate] at heqApply
          split at heqApply
          · exact Option.noConfusion heqApply
          rename_i ev hchg
          split at heqApply
          · exact Option.noConfusion heqApply
          rename_i h1 src' hcs
          split at heqApply
          · exact Option.noConfusion heqApply
          rename_i h2 kw' hck
          split at heqApply
          · exact Option.noConfusion heqApply
          rename_i o hget2
          split at heqApply
          · rename_i es hdata
            cases heqApply
            cases heqOut
            obtain ⟨a01, hk1, wf1, tr1⟩ :=
              (convertSpecAll fuel).2.2.1 h src selfId h1 src'
                (fun kv hkv => hins kv (List.mem_append_left _ hkv)) hcs
            obtain ⟨a12, hk2, wf2, tr2⟩ :=
              (convertSpecAll fuel).2.2.1 h1 kwds selfId h2 kw'
                (fun kv hkv => plainVal_mono (AgreesLe.sub a01)
                  (hins kv (List.mem_append_right _ hkv))) hck
            have amid := a01.trans a12
            rw [amid.2 selfId hltS, hgS] at hget2
            cases hget2
            have hvals : ∀ w ∈ (ObjData.dictData
                ((src' ++ kw').foldl (fun acc kv => assocSet acc kv.1 kv.2) es)).values,
                w ∈ oS.data.values ∨
                ValWF (h2.set selfId ⟨oS.ty, oS.parent,
                  .dictData ((src' ++ kw').foldl
                    (fun acc kv => assocSet acc kv.1 kv.2) es)⟩) w selfId := by
              intro w hw
              simp only [ObjData.values] at hw
              rcases mem_snd_foldl_assocSet (src' ++ kw') es w hw with hw' | hw'
              · rw [hdata]
                exact Or.inl (by simpa [ObjData.values] using hw')
              · simp only [List.map_append, List.mem_append, List.mem_map] at hw'
                rcases hw' with ⟨kv, hkv, rfl⟩ | ⟨kv, hkv, rfl⟩
                · exact Or.inr (wf1 _
                    (freshAgree_left a12 (freshAgree_set_outside _ hltS)) kv hkv)
                · exact Or.inr (wf2 _
                    (freshAgree_right a01 (freshAgree_set_outside _ hltS)) kv hkv)
            have hpres := insert_preserves hgS amid hvals
            exact ⟨hpres selfId ⟨oS, hgS, htS, hkS⟩, hpres⟩
          · exact Option.noConfusion heqApply
        | lSet idx v =>
          simp only [applyOp, listSetItem] at heqApply
          split at heqApply
          · exact Option.noConfusion heqApply
          rename_i ev hchg
          split at heqApply
          · exact Option.noConfusion heqApply
          rename_i h1 v' hcv
          split at heqApply
          · exact Option.noConfusion heqApply
          rename_i o hget1
          split at heqApply
          · rename_i xs hdata
            split at heqApply
            · rename_i j hj
              cases heqApply
              cases heqOut
              obtain ⟨a01, wfc, trc⟩ :=
                (convertSpecAll fuel).1 h v selfId h1 v' hins hcv
              rw [a01.2 selfId hltS, hgS] at hget1
              cases hget1
              have hvals : ∀ w ∈ (ObjData.listData (xs.set j v')).values,
                  w ∈ oS.data.values ∨
                  ValWF (h1.set selfId ⟨oS.ty, oS.parent,
                    .listData (xs.set j v')⟩) w selfId := by
                intro w hw
                simp only [ObjData.values] at hw
                rcases mem_of_mem_set xs j v' w hw with rfl | hw'
                · exact Or.inr (wfc _ (freshAgree_set_outside _ hltS))
                · rw [hdata]
                  exact Or.inl (by simpa [ObjData.values] using hw')
              have hpres := insert_preserves hgS a01 hvals
              exact ⟨hpres selfId ⟨oS, hgS, htS, hkS⟩, hpres⟩
            · cases heqApply
              exact Except.noConfusion heqOut
          · exact Option.noConfusion heqApply
        | lAppend v =>
          simp only [applyOp, listAppend] at heqApply
          split at heqApply
          · exact Option.noConfusion heqApply
          rename_i ev hchg
          split at heqApply
          · exact Option.noConfusion heqApply
          rename_i h1 v' hcv
          split at heqApply
          · exact Option.noConfusion heqApply
          rename_i o hget1
          split at heqApply
          · rename_i xs hdata
            cases heqApply
            cases heqOut
            obtain ⟨a01, wfc, trc⟩ :=
              (convertSpecAll fuel).1 h v selfId h1 v' hins hcv
            rw [a01.2 selfId hltS, hgS] at hget1
            cases hget1
            have hvals : ∀ w ∈ (ObjData.listData (xs ++ [v'])).values,
                w ∈ oS.data.values ∨
                ValWF (h1.set selfId ⟨oS.ty, oS.parent,
                  .listData (xs ++ [v'])⟩) w selfId := by
              intro w hw
              simp only [ObjData.values, List.mem_append,
                List.mem_singleton] at hw
              rcases hw with hw' | rfl
              · rw [hdata]
                exact Or.inl (by simpa [ObjData.values] using hw')
              · exact Or.inr (wfc _ (freshAgree_set_outside _ hltS))
            have hpres := insert_preserves hgS a01 hvals
            exact ⟨hpres selfId ⟨oS, hgS, htS, hkS⟩, hpres⟩
          · exact Option.noConfusion heqApply
        | lExtend vs =>
          simp only [applyOp, listExtend] at heqApply
          split at heqApply
          · exact Option.noConfusion heqApply
          rename_i ev hchg
          split at heqApply
          · exact Option.noConfusion heqApply
          rename_i h1 vs' hcv
          split at heqApply
          · exact Option.noConfusion heqApply
          rename_i o hget1
          split at heqApply
          · rename_i xs hdata
            cases heqApply
            cases heqOut
            obtain ⟨a01, wfc, trc⟩ :=
              (convertSpecAll fuel).2.2.2 h vs selfId h1 vs' hins hcv
            rw [a01.2 selfId hltS, hgS] at hget1
            cases hget1
            have hvals : ∀ w ∈ (ObjData.listData (xs ++ vs')).values,
                w ∈ oS.data.values ∨
                ValWF (h1.set selfId ⟨oS.ty, oS.parent,
                  .listData (xs ++ vs')⟩) w selfId := by
              intro w hw
              simp only [ObjData.values, List.mem_append] at hw
              rcases hw with hw' | hw'
              · rw [hdata]
                exact Or.inl (by simpa [ObjData.values] using hw')
              · exact Or.inr (wfc _ (freshAgree_set_outside _ hltS) w hw')
            have hpres := insert_preserves hgS a01 hvals
            exact ⟨hpres selfId ⟨oS, hgS, htS, hkS⟩, hpres⟩
          · exact Option.noConfusion heqApply
        | dDel k => exact hins.elim
        | dClear => exact hins.elim
        | dPop k d => exact hins.elim
        | dPopItem => exact hins.elim
        | lDel i => exact hins.elim
        | lRemove v => exact hins.elim
        | lPop i => exact hins.elim
        | lSort b => exact hins.elim
      · exact Option.noConfusion happ

/-! ### Assorted helper lemmas -/

theorem assocGet_assocSet_self {κ α : Type} [DecidableEq κ] :
    ∀ (es : List (κ × α)) (k : κ) (v : α),
      assocGet (assocSet es k v) k = some v := by
  intro es k v
  induction es with
  | nil => simp [assocSet, assocGet]
  | cons kv rest ih =>
    by_cases hk : kv.1 = k
    · simp [assocSet, assocGet, hk]
    · simp only [assocSet, if_neg hk, assocGet]
      exact ih

theorem assocGet_assocErase_ne {κ α : Type} [DecidableEq κ] :
    ∀ (es : List (κ × α)) (k k' : κ), k' ≠ k →
      assocGet (assocErase es k) k' = assocGet es k' := by
  intro es k k' hne
  induction es with
  | nil => rfl
  | cons kv rest ih =>
    by_cases hk : kv.1 = k
    · simp only [assocErase, if_pos hk, assocGet]
      rw [if_neg (fun heq => hne (heq.symm.trans hk))]
    · simp only [assocErase, if_neg hk, assocGet]
      by_cases hk' : kv.1 = k'
      · rw [if_pos hk', if_pos hk']
      · rw [if_neg hk', if_neg hk']
        exact ih

theorem assocGet_assocErase_self {κ α : Type} [DecidableEq κ] :
    ∀ (es : List (κ × α)) (k : κ), (es.map Prod.fst).Nodup →
      assocGet (assocErase es k) k = none := by
  intro es k hnd
  induction es with
  | nil => rfl
  | cons kv rest ih =>
    simp only [List.map_cons, List.nodup_cons] at hnd
    by_cases hk : kv.1 = k
    · simp only [assocErase, if_pos hk]
      subst hk
      cases hg : assocGet rest kv.1 with
      | none => rfl
      | some v =>
        exfalso
        apply hnd.1
        clear ih hnd
        induction rest with
        | nil => exact Option.noConfusion hg
        | cons kv' rest' ih' =>
          simp only [assocGet] at hg
          by_cases hk' : kv'.1 = kv.1
          · simp [← hk']
          · rw [if_neg hk'] at hg
            simp only [List.map_cons, List.mem_cons]
            exact Or.inr (ih' hg)
    · simp only [assocErase, if_neg hk, assocGet]
      exact ih hnd.2

/-- `changed` reads only types and `parent` attributes, so it is unaffected
by payload rewrites. -/
theorem changed_congr {h h' : Heap}
    (hpt : ∀ j, (h'.get? j).map (fun o => (o.ty, o.parent))
      = (h.get? j).map (fun o => (o.ty, o.parent))) :
    ∀ f j, changed f h' j = changed f h j := by
  intro f
  induction f with
  | zero => intro _; rfl
  | succ f ih =>
    intro j
    have hj := hpt j
    cases hg : h.get? j with
    | none =>
      rw [hg] at hj
      cases hg' : h'.get? j with
      | none => simp only [changed, hg, hg']
      | some o' => rw [hg'] at hj; exact absurd hj (by simp)
    | some o =>
      rw [hg] at hj
      cases hg' : h'.get? j with
      | none => rw [hg'] at hj; exact absurd hj (by simp)
      | some o' =>
        rw [hg'] at hj
        simp only [Option.map_some', Option.some.injEq, Prod.mk.injEq] at hj
        simp only [changed, hg, hg', hj.1, hj.2]
        cases hp : o.parent with
        | some p => exact ih p
        | none => rfl

/-- Frame property of the conversion machinery on arbitrary (not necessarily
plain) inputs: previously allocated objects are never touched. -/
def ConvertFrame (n : Nat) : Prop :=
  (∀ h v pid h' v', convert n h v pid = some (h', v') → AgreesLe h h') ∧
  (∀ h ty d h' nid, newTracked n h ty d = some (h', nid) →
    AgreesLe h h' ∧ nid = h.size) ∧
  (∀ h es pid h' es', convEntries n h es pid = some (h', es') → AgreesLe h h') ∧
  (∀ h xs pid h' xs', convElems n h xs pid = some (h', xs') → AgreesLe h h')

theorem convertFrame : ∀ n, ConvertFrame n := by
  intro n
  induction n with
  | zero =>
    exact ⟨fun h v pid h' v' hc => Option.noConfusion hc,
      fun h ty d h' nid hc => Option.noConfusion hc,
      fun h es pid h' es' hc => Option.noConfusion hc,
      fun h xs pid h' xs' hc => Option.noConfusion hc⟩
  | succ n ih =>
    obtain ⟨ihc, ihn, ihe, ihx⟩ := ih
    refine ⟨?_, ?_, ?_, ?_⟩
    · intro h v pid h' v' hc
      cases v with
      | prim s =>
        simp only [convert] at hc
        cases hc
        exact AgreesLe.refl h
      | ref i =>
        simp only [convert] at hc
        split at hc
        · exact Option.noConfusion hc
        · rename_i o hg
          split at hc
          · cases hc
            exact AgreesLe.refl h
          · rename_i replTy hrepl
            split at hc
            · exact Option.noConfusion hc
            · rename_i h1 nid hnt
              cases hc
              obtain ⟨a01, hnid⟩ := ihn h replTy o.data h1 nid hnt
              constructor
              · simp only [Heap.setParent]
                split
                · rw [Heap.size_set]
                  exact a01.1
                · exact a01.1
              · intro i2 hi2
                simp only [Heap.setParent]
                split
                · rw [Heap.get?_set_ne h1 _ (by omega), a01.2 i2 hi2]
                · rw [a01.2 i2 hi2]
    · intro h ty d h' nid hc
      cases d with
      | dictData es =>
        simp only [newTracked, ObjData.emptyLike, Heap.alloc] at hc
        split at hc
        · exact Option.noConfusion hc
        · rename_i h2 es' hce
          cases hc
          have ha01 : AgreesLe h ⟨h.objs ++ [⟨ty, none, ObjData.dictData []⟩]⟩ :=
            AgreesLe.alloc h _
          have a12 := ihe _ es h.objs.length h2 es' hce
          refine ⟨⟨?_, ?_⟩, rfl⟩
          · rw [Heap.size_set]
            exact le_trans ha01.1 a12.1
          · intro i hi
            rw [Heap.get?_set_ne h2 _ (by simp only [Heap.size] at hi; omega),
              a12.2 i (lt_of_lt_of_le hi ha01.1), ha01.2 i hi]
      | listData xs =>
        simp only [newTracked, ObjData.emptyLike, Heap.alloc] at hc
        split at hc
        · exact Option.noConfusion hc
        · rename_i h2 xs' hce
          cases hc
          have ha01 : AgreesLe h ⟨h.objs ++ [⟨ty, none, ObjData.listData []⟩]⟩ :=
            AgreesLe.alloc h _
          have a12 := ihx _ xs h.objs.length h2 xs' hce
          refine ⟨⟨?_, ?_⟩, rfl⟩
          · rw [Heap.size_set]
            exact le_trans ha01.1 a12.1
          · intro i hi
            rw [Heap.get?_set_ne h2 _ (by simp only [Heap.size] at hi; omega),
              a12.2 i (lt_of_lt_of_le hi ha01.1), ha01.2 i hi]
    · intro h es pid h' es' hc
      cases es with
      | nil =>
        simp only [convEntries] at hc
        cases hc
        exact AgreesLe.refl h
      | cons kv rest =>
        simp only [convEntries] at hc
        split at hc
        · exact Option.noConfusion hc
        · rename_i h1 v1 hcv
          split at hc
          · exact Option.noConfusion hc
          · rename_i h2 rest' hcr
            cases hc
            exact (ihc h kv.2 pid h1 v1 hcv).trans (ihe h1 rest pid _ _ hcr)
    · intro h xs pid h' xs' hc
      cases xs with
      | nil =>
        simp only [convElems] at hc
        cases hc
        exact AgreesLe.refl h
      | cons x rest =>
        simp only [convElems] at hc
        split at hc
        · exact Option.noConfusion hc
        · rename_i h1 v1 hcv
          split at hc
          · exact Option.noConfusion hc
          · rename_i h2 rest' hcr
            cases hc
            exact (ihc h x pid h1 v1 hcv).trans (ihx h1 rest pid _ _ hcr)

/-- Full characterization of `TrackedDict.__setitem__`: one `changed`, the
value converted with `self` as parent, the entry replaced or appended. -/
theorem dictSetItem_spec {fuel : Nat} {h : Heap} {selfId : Nat} {key : String}
    {value : PyVal} {res : OpResult}
    (happ : dictSetItem fuel h selfId key value = some res) :
    ∃ ev h1 v' o es, changed fuel h selfId = some ev ∧
      convert fuel h value selfId = some (h1, v') ∧
      h1.get? selfId = some o ∧ o.data = .dictData es ∧
      res = ⟨ev, .ok (h1.set selfId ⟨o.ty, o.parent,
        .dictData (assocSet es key v')⟩, [])⟩ := by
  simp only [dictSetItem] at happ
  split at happ
  · exact Option.noConfusion happ
  rename_i ev hchg
  split at happ
  · exact Option.noConfusion happ
  rename_i h1 v' hcv
  split at happ
  · exact Option.noConfusion happ
  rename_i o hget1
  split at happ
  · rename_i es hdata
    cases happ
    exact ⟨ev, h1, v', o, es, hchg, hcv, hget1, hdata, rfl⟩
  · exact Option.noConfusion happ

/-! ### State capture for pickling (`sqlalchemy_json/__init__.py`)

`NestedMutableDict` / `NestedMutableList` mix in `_PickleMixin`:

```python
class _PickleMixin:
    def __getstate__(self):
        d = self.__dict__.copy()
        d.pop("_parents", None)
        return d
```

`_parents` is `sqlalchemy.ext.mutable.Mutable`'s map from the parent records
owning this mutable value to their attribute keys (a `WeakKeyDictionary`,
which cannot be pickled); the saved representation is the attribute dict
with exactly this parent-record reference removed and everything else kept.
An instance `__dict__` is modelled as a key-unique ordered attribute map. -/

def getstate {α : Type} (d : List (String × α)) : List (String × α) :=
  assocErase d "_parents"

/-- Modelled from the spec: on load, the parent-record reference is
reattached by the container performing the load (SQLAlchemy's `Mutable`
attribute machinery, outside this repository), which points the loaded
value's `_parents` at the loading container instead of restoring it from
the saved state. -/
def loadReattach {α : Type} (owner : α) (st : List (String × α)) :
    List (String × α) :=
  assocSet st "_parents" owner

/-! ### The claims -/

/-- C1: every mutating operation of the public interface (`__setitem__`,
`__delitem__`, `clear`, `pop`, `popitem`, `update` on mappings;
`__setitem__`, `__delitem__`, `append`, `extend`, `remove`, `pop`, `sort` on
sequences), run on a tracked node at any depth below a `Mutable` root,
invokes the root's notification hook exactly once — regardless of the depth,
of the operation, and of how much (or little) a bulk `update` merges. -/
theorem c1_root_hook_once (fuel : Nat) (h : Heap) (selfId : Nat)
    (chain : List Nat) (r : Nat) (op : MutOp) (res : OpResult)
    (hch : Ancestors h selfId chain) (hlast : chain.getLast? = some r)
    (hmut : mutableAt h r = true)
    (happ : applyOp fuel h selfId op = some res) :
    res.events = [r] := by
  have hev := changed_det hch hlast (applyOp_events happ)
  rw [if_pos hmut] at hev
  exact hev

/-- Heap for the C1 witness: a `NestedMutableDict` root holding a
`TrackedDict` child at key `"a"`. -/
def hwC1 : Heap :=
  ⟨[⟨.nestedMutableDict, none, .dictData [("a", .ref 1)]⟩,
    ⟨.trackedDict, some 0, .dictData []⟩]⟩

theorem c1_root_hook_once_witness :
    (⟨[0], .ok (hwC1.set 1 ⟨.trackedDict, some 0, .dictData []⟩, [])⟩
      : OpResult).events = [0] :=
  c1_root_hook_once 2 hwC1 1 [1, 0] 0 (.dUpdate [] []) _
    (.step 1 0 ⟨.trackedDict, some 0, .dictData []⟩ [0] rfl rfl
      (.root 0 ⟨.nestedMutableDict, none, .dictData [("a", .ref 1)]⟩ rfl rfl))
    rfl rfl rfl

/-- C8: `changed()` cannot fail of its own: on any node whose `parent` chain
is finite (every reachable state), and with recursion room at least the
chain length, it completes, performs no heap mutation (it returns only the
hook-invocation list), and invokes the owner hook at most once — exactly at
the chain's root and only when that root mixes in `Mutable`.  In particular,
on a parentless node without the `Mutable` hook it is a harmless no-op
(no hook events at all).  Any failure of the owner's hook itself is outside
`changed` — the events are handed to the external hook synchronously. -/
theorem c8_changed_total (h : Heap) (i : Nat) (chain : List Nat)
    (fuel r : Nat) (hch : Ancestors h i chain)
    (hlast : chain.getLast? = some r) (hfuel : chain.length ≤ fuel) :
    changed fuel h i = some (if mutableAt h r then [r] else []) := by
  obtain ⟨ev, hev⟩ := changed_total hch hfuel
  rw [hev, changed_det hch hlast hev]

/-- Heap for the C8 witness: a single parentless `TrackedDict` that is not a
`Mutable` — `changed()` on it is a no-op. -/
def hwC8 : Heap := ⟨[⟨.trackedDict, none, .dictData []⟩]⟩

theorem c8_changed_total_witness :
    changed 1 hwC8 0 = some (if mutableAt hwC8 0 then [0] else []) :=
  c8_changed_total hwC8 0 [0] 1 0
    (.root 0 ⟨.trackedDict, none, .dictData []⟩ rfl rfl) rfl (by decide)

/-- Strict subclasses of `dict`/`list` among the modelled runtime types:
every container type other than the exact builtins. -/
def PyType.isStrictSub : PyType → Bool
  | .dict => false
  | .list => false
  | _ => true

theorem isStrictSub_lookup_none {t : PyType} (ht : t.isStrictSub = true) :
    assocGet typeMapping t = none := by
  cases t <;> simp_all [PyType.isStrictSub] <;> rfl

/-- C10: `convert` matches on the exact runtime type only.  A value whose
type is a strict (unregistered) subclass of `dict` or `list` — including the
tracked classes themselves — is returned as-is: no tracked copy is made, the
heap is completely untouched, and in particular no `parent` attribute is set
or rebound. -/
theorem c10_convert_exact_type (fuel : Nat) (h : Heap) (i pid : Nat) (o : Obj)
    (hget : h.get? i = some o) (hsub : o.ty.isStrictSub = true) :
    convert (fuel + 1) h (.ref i) pid = some (h, .ref i) := by
  simp only [convert, hget, isStrictSub_lookup_none hsub]

/-- Heap for the C10 witness: a lone `TrackedDict` (a strict subclass of
`dict`). -/
def hwC10 : Heap := ⟨[⟨.trackedDict, none, .dictData []⟩]⟩

theorem c10_convert_exact_type_witness :
    convert 1 hwC10 (.ref 0) 5 = some (hwC10, .ref 0) :=
  c10_convert_exact_type 0 hwC10 0 5 ⟨.trackedDict, none, .dictData []⟩ rfl rfl

/-- C4 counterexample: deleting the absent key `"a"` from an empty
`NestedMutableDict` root raises `KeyError` — but the root's notification
hook has already been invoked (event list `[0]`, not `[]`), because
`TrackedDict.__delitem__` calls `self.changed(...)` before the native
delete.  This refutes the claim that the hook is not invoked on a failing
delete. -/
theorem c4_counterexample :
    dictDelItem 1 ⟨[⟨.nestedMutableDict, none, .dictData []⟩]⟩ 0 "a"
      = some ⟨[0], .error (.keyError "a")⟩ ∧ ([0] : List Nat) ≠ [] :=
  ⟨rfl, by simp⟩

/-- C4 (amended): `delete(k)` on a mapping without key `k` fails with
`KeyNotFound` and leaves the mapping unchanged (the error result carries no
new heap), and the error is raised synchronously to the caller, not through
the notification mechanism — but the root's hook IS invoked exactly once,
because the notification is issued before the native deletion is attempted. -/
theorem c4_delete_missing_notifies (fuel : Nat) (h : Heap) (selfId : Nat)
    (chain : List Nat) (r : Nat) (key : String) (o : Obj)
    (es : List (String × PyVal))
    (hch : Ancestors h selfId chain) (hlast : chain.getLast? = some r)
    (hmut : mutableAt h r = true) (hfuel : chain.length ≤ fuel)
    (hget : h.get? selfId = some o) (hdata : o.data = .dictData es)
    (habs : assocGet es key = none) :
    dictDelItem fuel h selfId key = some ⟨[r], .error (.keyError key)⟩ := by
  obtain ⟨ev, hev⟩ := changed_total hch hfuel
  have hev' := changed_det hch hlast hev
  rw [if_pos hmut] at hev'
  subst hev'
  simp only [dictDelItem, hev, hget, hdata, habs]

def hwC4 : Heap := ⟨[⟨.nestedMutableDict, none, .dictData [("b", .prim .nil)]⟩]⟩

theorem c4_delete_missing_notifies_witness :
    dictDelItem 1 hwC4 0 "a" = some ⟨[0], .error (.keyError "a")⟩ :=
  c4_delete_missing_notifies 1 hwC4 0 [0] 0 "a"
    ⟨.nestedMutableDict, none, .dictData [("b", .prim .nil)]⟩
    [("b", .prim .nil)]
    (.root 0 ⟨.nestedMutableDict, none, .dictData [("b", .prim .nil)]⟩ rfl rfl)
    rfl rfl (by decide) rfl rfl rfl

/-- C7 (code bug): `TrackedList.sort()` on Python 3 (the declared support
range) always raises `TypeError`, because the override forwards a `cmp`
keyword that `list.sort` no longer accepts — after having already invoked
the root hook once.  Evaluated here on a `NestedMutableList` root holding
`[3, 1, 2]`: the call notifies (`[0]`) and errors instead of sorting. -/
theorem c7_sort_raises_typeerror :
    listSort 1 ⟨[⟨.nestedMutableList, none,
      .listData [.prim (.int 3), .prim (.int 1), .prim (.int 2)]⟩]⟩ 0 false
      = some ⟨[0], .error .typeError⟩ := rfl

/-- Heap for the C3 counterexample: `A` (id 0) is a `NestedMutableDict` root
holding the `TrackedDict` `B` (id 1, `parent = A`) at key `"b"`; `C` (id 2)
is another `NestedMutableDict` root. -/
def hwC3 : Heap :=
  ⟨[⟨.nestedMutableDict, none, .dictData [("b", .ref 1)]⟩,
    ⟨.trackedDict, some 0, .dictData []⟩,
    ⟨.nestedMutableDict, none, .dictData []⟩]⟩

/-- Heap after `C["k"] = B` on `hwC3`. -/
def hwC3' : Heap :=
  ⟨[⟨.nestedMutableDict, none, .dictData [("b", .ref 1)]⟩,
    ⟨.trackedDict, some 0, .dictData []⟩,
    ⟨.nestedMutableDict, none, .dictData [("k", .ref 1)]⟩]⟩

/-- C3 counterexample: storing the already-tracked `B` (a child of `A`) into
the other container `C` does reuse `B` — but `B.parent` is NOT rebound: it
still points at `A` (`some 0`, not `some 2`), and a subsequent `changed()`
on `B` notifies `A`'s root hook (`[0]`), not `C`'s (`[2]`).  This refutes
the claimed parent rebinding. -/
theorem c3_counterexample :
    dictSetItem 2 hwC3 2 "k" (.ref 1) = some ⟨[2], .ok (hwC3', [])⟩ ∧
    hwC3'.get? 1 = some ⟨.trackedDict, some 0, .dictData []⟩ ∧
    (some 0 : Option Nat) ≠ some 2 ∧
    changed 2 hwC3' 1 = some [0] ∧ ([0] : List Nat) ≠ [2] :=
  ⟨rfl, rfl, by simp, rfl, by simp⟩

/-- C3 (amended): inserting an already-tracked node `B` as a value into
another tracked container stores `B` itself — no copy is made, the heap does
not grow — but does NOT rebind `B`'s `parent`: `B`'s object, `parent`
attribute included, is bit-for-bit unchanged, so a subsequent `changed()` on
`B` walks exactly the same chain as before the insertion (up through its old
parent, not through the new container). -/
theorem c3_no_parent_rebind (fuel : Nat) (h : Heap) (selfId i : Nat)
    (key : String) (oB : Obj) (ev : List Nat) (h' : Heap) (ret : List PyVal)
    (hne : i ≠ selfId)
    (hB : h.get? i = some oB) (htr : oB.ty.isTracked = true)
    (happ : dictSetItem fuel h selfId key (.ref i) = some ⟨ev, .ok (h', ret)⟩) :
    (∃ o es, h'.get? selfId = some o ∧
       o.data = .dictData (assocSet es key (.ref i)) ∧
       assocGet (assocSet es key (.ref i)) key = some (.ref i)) ∧
    h'.get? i = some oB ∧ h'.size = h.size ∧
    (∀ f, changed f h' i = changed f h i) := by
  obtain ⟨ev1, h1, v', o, es, hchg, hcv, hget1, hdata, hres⟩ :=
    dictSetItem_spec happ
  cases fuel with
  | zero => exact Option.noConfusion hcv
  | succ fuel =>
    simp only [convert, hB, isTracked_lookup_none htr] at hcv
    cases hcv
    injection hres with hres1 hres2
    injection hres2 with hres2
    injection hres2 with hres2 hres3
    subst hres2
    have hlt : selfId < h.size := Heap.lt_size_of_get? hget1
    refine ⟨⟨⟨o.ty, o.parent, .dictData (assocSet es key (.ref i))⟩, es, ?_, rfl,
      assocGet_assocSet_self es key (.ref i)⟩, ?_, ?_, ?_⟩
    · exact Heap.get?_set_self _ hlt
    · rw [Heap.get?_set_ne h _ hne]
      exact hB
    · exact Heap.size_set h selfId _
    · intro f
      apply changed_congr
      intro j
      by_cases hj : j = selfId
      · subst hj
        rw [Heap.get?_set_self _ hlt, hget1]
        rfl
      · rw [Heap.get?_set_ne h _ hj]

theorem c3_no_parent_rebind_witness :
    hwC3'.get? 1 = some ⟨.trackedDict, some 0, .dictData []⟩ ∧
    changed 2 hwC3' 1 = changed 2 hwC3 1 :=
  ⟨(c3_no_parent_rebind 2 hwC3 2 1 "k" ⟨.trackedDict, some 0, .dictData []⟩
      [2] hwC3' [] (by decide) rfl rfl rfl).2.1,
    (c3_no_parent_rebind 2 hwC3 2 1 "k" ⟨.trackedDict, some 0, .dictData []⟩
      [2] hwC3' [] (by decide) rfl rfl rfl).2.2.2 2⟩

/-- C5: `setdefault(key, default)`.  When the key is present, the stored
value is returned with no notification and no change to the heap.  When it
is absent, the root hook fires exactly once, the value stored at the key is
the conversion of `default` (parented at the mapping when `default` is a
plain container), and the call returns exactly that stored value — not
necessarily `default` itself. -/
theorem c5_setdefault (fuel : Nat) (h : Heap) (selfId : Nat) (key : String)
    (dflt : PyVal) (chain : List Nat) (r : Nat) (o : Obj)
    (es : List (String × PyVal))
    (hch : Ancestors h selfId chain) (hlast : chain.getLast? = some r)
    (hmut : mutableAt h r = true)
    (hget : h.get? selfId = some o) (hdata : o.data = .dictData es) :
    (∀ v, assocGet es key = some v →
      dictSetDefault fuel h selfId key dflt = some ⟨[], .ok (h, [v])⟩) ∧
    (assocGet es key = none →
      ∀ res, dictSetDefault fuel h selfId key dflt = some res →
        ∃ h1 v', convert fuel h dflt selfId = some (h1, v') ∧
          res = ⟨[r], .ok (h1.set selfId ⟨o.ty, o.parent,
            .dictData (assocSet es key v')⟩, [v'])⟩ ∧
          (PlainVal h dflt →
            ValWF (h1.set selfId ⟨o.ty, o.parent,
              .dictData (assocSet es key v')⟩) v' selfId)) := by
  have hltS : selfId < h.size := Heap.lt_size_of_get? hget
  constructor
  · intro v hv
    simp only [dictSetDefault, hget, hdata, hv]
  · intro habs res hres
    simp only [dictSetDefault, hget, hdata, habs] at hres
    split at hres
    · exact Option.noConfusion hres
    · rename_i ev e heq
      obtain ⟨ev1, h1', v', o1, es1, hchg, hcv, hget1, hdata1, hreseq⟩ :=
        dictSetItem_spec heq
      exact absurd hreseq (by simp)
    · rename_i ev h1 ret0 heq
      obtain ⟨ev1, h1', v', o1, es1, hchg, hcv, hget1, hdata1, hreseq⟩ :=
        dictSetItem_spec heq
      have a01 := (convertFrame fuel).1 h dflt selfId h1' v' hcv
      rw [a01.2 selfId hltS, hget] at hget1
      cases hget1
      rw [hdata] at hdata1
      injection hdata1 with hdata1
      subst hdata1
      simp only [OpResult.mk.injEq, Except.ok.injEq, Prod.mk.injEq] at hreseq
      obtain ⟨he1, he2, he3⟩ := hreseq
      subst he1
      subst he2
      have hg2 : (h1'.set selfId
          ⟨o.ty, o.parent, .dictData (assocSet es key v')⟩).get? selfId
          = some ⟨o.ty, o.parent, .dictData (assocSet es key v')⟩ :=
        Heap.get?_set_self _ (lt_of_lt_of_le hltS a01.1)
      simp only [hg2, assocGet_assocSet_self] at hres
      cases hres
      have hev : ev = [r] := by
        have := changed_det hch hlast hchg
        rwa [if_pos hmut] at this
      subst hev
      refine ⟨h1', v', hcv, rfl, ?_⟩
      intro hp
      obtain ⟨_, wfc, _⟩ := (convertSpecAll fuel).1 h dflt selfId h1' v' hp hcv
      exact wfc _ (freshAgree_set_outside _ hltS)

def hwC5 : Heap :=
  ⟨[⟨.nestedMutableDict, none, .dictData [("k", .prim (.int 7))]⟩]⟩

theorem c5_setdefault_witness :
    dictSetDefault 2 hwC5 0 "k" (.prim .nil) = some ⟨[], .ok (hwC5, [.prim (.int 7)])⟩ :=
  (c5_setdefault 2 hwC5 0 "k" (.prim .nil) [0] 0
    ⟨.nestedMutableDict, none, .dictData [("k", .prim (.int 7))]⟩
    [("k", .prim (.int 7))]
    (.root 0 ⟨.nestedMutableDict, none, .dictData [("k", .prim (.int 7))]⟩ rfl rfl)
    rfl rfl rfl rfl).1 (.prim (.int 7)) rfl

/-- C6: constructing a tracked container from a plain nested structure fires
no notification at all, and the constructed container is value-equal to its
source: it extracts to the same plain tree — same key set, same key order,
same element order — at every read depth. -/
theorem c6_construction_value_equal (fuel : Nat) (nested : Bool) (h : Heap)
    (v : PyVal) (ev : List Nat) (h' : Heap) (nid : Nat)
    (hplain : PlainVal h v)
    (hct : constructTracked fuel nested h v = some (ev, h', nid)) :
    ev = [] ∧ ∀ g, toTree g h' (.ref nid) = toTree g h v := by
  cases hplain with
  | prim s => simp [constructTracked] at hct
  | dict i pr es hg hnd hkids =>
    simp only [constructTracked, hg] at hct
    split at hct
    · exact Option.noConfusion hct
    · rename_i h1 nid1 hntc
      cases hct
      obtain ⟨a01, hnid, hlt, data', hgetn, kids, trees⟩ :=
        (convertSpecAll fuel).2.1 h _ (.dictData es) h' nid ⟨hnd, hkids⟩ hntc
      refine ⟨rfl, ?_⟩
      intro g
      cases g with
      | zero => rfl
      | succ g =>
        have tt := trees g h' (fun j _ _ => rfl)
        simp only [toTree, hgetn, hg]
        cases data' <;> simp only [dataTrees] at tt <;> exact tt
  | list i pr xs hg hkids =>
    simp only [constructTracked, hg] at hct
    split at hct
    · exact Option.noConfusion hct
    · rename_i h1 nid1 hntc
      cases hct
      obtain ⟨a01, hnid, hlt, data', hgetn, kids, trees⟩ :=
        (convertSpecAll fuel).2.1 h _ (.listData xs) h' nid hkids hntc
      refine ⟨rfl, ?_⟩
      intro g
      cases g with
      | zero => rfl
      | succ g =>
        have tt := trees g h' (fun j _ _ => rfl)
        simp only [toTree, hgetn, hg]
        cases data' <;> simp only [dataTrees] at tt <;> exact tt

def hwC6 : Heap := ⟨[⟨.dict, none, .dictData [("x", .prim (.int 1))]⟩]⟩

def hwC6' : Heap :=
  ⟨[⟨.dict, none, .dictData [("x", .prim (.int 1))]⟩,
    ⟨.nestedMutableDict, none, .dictData [("x", .prim (.int 1))]⟩]⟩

theorem c6_construction_value_equal_witness :
    ([] : List Nat) = [] ∧ toTree 2 hwC6' (.ref 1) = toTree 2 hwC6 (.ref 0) :=
  ⟨(c6_construction_value_equal 3 true hwC6 (.ref 0) [] hwC6' 1
      (.dict 0 none [("x", .prim (.int 1))] rfl (by decide)
        (fun kv hkv => by
          rcases List.mem_singleton.mp hkv with rfl
          exact .prim _)) rfl).1,
    (c6_construction_value_equal 3 true hwC6 (.ref 0) [] hwC6' 1
      (.dict 0 none [("x", .prim (.int 1))] rfl (by decide)
        (fun kv hkv => by
          rcases List.mem_singleton.mp hkv with rfl
          exact .prim _)) rfl).2 2⟩

/-- C9: the saved representation produced by `__getstate__` excludes the
parent-record reference `_parents` and keeps every other attribute
unchanged; after a load, the parent-record reference is the one attached by
the container performing the load, never one read back from the saved
state. -/
theorem c9_getstate_excludes_parents {α : Type} (d : List (String × α))
    (owner : α) (hnd : (d.map Prod.fst).Nodup) :
    assocGet (getstate d) "_parents" = none ∧
    (∀ k, k ≠ "_parents" → assocGet (getstate d) k = assocGet d k) ∧
    assocGet (loadReattach owner (getstate d)) "_parents" = some owner :=
  ⟨assocGet_assocErase_self d "_parents" hnd,
    fun k hk => assocGet_assocErase_ne d "_parents" k hk,
    assocGet_assocSet_self (getstate d) "_parents" owner⟩

def dwC9 : List (String × Nat) := [("parent", 7), ("_parents", 9)]

theorem c9_getstate_excludes_parents_witness :
    assocGet (getstate dwC9) "_parents" = none ∧
    assocGet (getstate dwC9) "parent" = assocGet dwC9 "parent" ∧
    assocGet (loadReattach 3 (getstate dwC9)) "_parents" = some 3 :=
  ⟨(c9_getstate_excludes_parents dwC9 3 (by decide)).1,
    (c9_getstate_excludes_parents dwC9 3 (by decide)).2.1 "parent" (by decide),
    (c9_getstate_excludes_parents dwC9 3 (by decide)).2.2⟩

def hwC2 : Heap :=
  ⟨[⟨.nestedMutableList, none, .listData []⟩,
    ⟨.dict, none, .dictData [("x", .prim (.int 1))]⟩]⟩

def hwC2' : Heap :=
  ⟨[⟨.nestedMutableList, none, .listData [.ref 2]⟩,
    ⟨.dict, none, .dictData [("x", .prim (.int 1))]⟩,
    ⟨.trackedDict, some 0, .dictData [("x", .prim (.int 1))]⟩]⟩

theorem c2_wrapping_closure_witness : NodeWF hwC2' 0 :=
  (c2_wrapping_closure 4 hwC2 0 (.mutate (.lAppend (.ref 1))) hwC2' 0
    ⟨⟨⟨.nestedMutableList, none, .listData []⟩, rfl, rfl,
        fun v hv => absurd hv (List.not_mem_nil v)⟩,
      .dict 1 none [("x", .prim (.int 1))] rfl (by decide)
        (fun kv hkv => by
          rcases List.mem_singleton.mp hkv with rfl
          exact .prim _)⟩
    rfl).1
